import Mathlib

/-!
Verification of the `rotated-vec` crate (`src/lib.rs`): a dynamic array
backed by a 2-level rotated array.  The container stores its elements in a
flat backing vector `data` partitioned into subarrays: subarray `k` occupies
the physical range `[T(k), T(k+1))` where `T(k) = k*(k+1)/2`, and an index
table `start_indexes` records, for each subarray, the physical offset of its
logically first element (the "pivot offset").

The shallow embedding below translates each Rust method into a Lean function
over `List`:
- `Vec<T>` becomes `List T`; `usize` becomes `Nat`;
- slice operations (`copy_within`, `rotate_left`, sub-slicing) become
  explicit `take`/`drop`/`set` manipulations with the same semantics;
- `self.data[i]` reads are modelled with `List.getD` (a Rust panic would be
  an out-of-bounds read; the theorems establish in-boundedness separately);
- the `f64` square root in `integer_sum_inverse` is modelled exactly: the
  Rust code computes `(f64::from((n * 8 + 1) as u32).sqrt() as usize)`.
  The cast `as u32` truncates to the low 32 bits (`% 2^32`).  Every `u32`
  value is exactly representable in `f64`; IEEE-754 square root is correctly
  rounded; and for `x < 2^32` the real `sqrt x` is below `2^16`, where a
  half-ulp is about `2^-37` while the distance from `sqrt x` to the nearest
  integer (when `x` is not a perfect square) is at least about `2^-17`, so
  truncating the rounded result to an integer yields exactly `Nat.sqrt x`.
  Hence the faithful model is `Nat.sqrt ((n * 8 + 1) % 2^32)`.
-/

namespace RotVec

/-- The container: `data` is the flat backing store, `start_indexes` is the
index table of pivot offsets (one per subarray in use). -/
structure RotatedVec (T : Type) where
  data : List T
  start_indexes : List Nat

/-- `fn integer_sum(n: usize) -> usize { (n * (n + 1)) / 2 }` -/
def integer_sum (n : Nat) : Nat := (n * (n + 1)) / 2

/-- Digit-recurrence integer square root with an explicit recursion bound
(`fuel`); structural recursion so that the kernel can evaluate it.  With
`fuel ≥ n` it computes the exact integer square root of `n`
(see `isqrt_spec`). -/
def sqrtFuel (fuel n : Nat) : Nat :=
  match fuel with
  | 0 => 0
  | fuel + 1 =>
    if n = 0 then 0
    else
      let r := 2 * sqrtFuel fuel (n / 4)
      if (r + 1) * (r + 1) ≤ n then r + 1 else r

/-- The integer square root: `isqrt n * isqrt n ≤ n < (isqrt n + 1)^2`. -/
def isqrt (n : Nat) : Nat := sqrtFuel n n

/-- `fn integer_sum_inverse(n: usize) -> usize`:
`((f64::from((n * 8 + 1) as u32).sqrt() as usize) - 1) / 2`.
Per the file comment, the `as u32` cast truncates modulo `2^32` and the
float square root of a `u32`, truncated to an integer, is the exact integer
square root `isqrt`. -/
def integer_sum_inverse (n : Nat) : Nat :=
  (isqrt ((n * 8 + 1) % 4294967296) - 1) / 2

/-- `fn get_subarray_idx_from_array_idx(idx: usize) -> usize`. -/
def get_subarray_idx_from_array_idx (idx : Nat) : Nat :=
  if idx = 0 then 0 else integer_sum_inverse idx

/-- `fn get_array_idx_from_subarray_idx(idx: usize) -> usize`. -/
def get_array_idx_from_subarray_idx (idx : Nat) : Nat :=
  if idx = 0 then 0 else integer_sum idx

/-- Largest length for which the `u32` cast inside `integer_sum_inverse`
does not truncate: `8 * lenBound + 1 < 2^32`. -/
def lenBound : Nat := 536870911

/-- `slice::copy_within(s..e, d)`: copies the range `[s, e)` of `l` to the
positions starting at `d`, reading the original values (Rust uses a
memmove).  Positions outside `[d, d + (e - s))` are unchanged. -/
def copy_within {T : Type} (l : List T) (s e d : Nat) : List T :=
  l.enum.map (fun p => if d ≤ p.1 ∧ p.1 < d + (e - s) then l.getD (s + (p.1 - d)) p.2 else p.2)

namespace RotatedVec

variable {T : Type} [Inhabited T]

/-- `pub fn len(&self) -> usize`. -/
def len (v : RotatedVec T) : Nat := v.data.length

/-- `pub fn is_empty(&self) -> bool`. -/
def is_empty (v : RotatedVec T) : Bool := v.data.isEmpty

/-- `fn is_last_subarray_full(&self) -> bool`. -/
def is_last_subarray_full (v : RotatedVec T) : Bool :=
  v.data.length == get_array_idx_from_subarray_idx v.start_indexes.length

/-- `fn get_real_index(&self, index: usize) -> usize`.  The Rust read
`self.start_indexes[subarray_idx]` is modelled with `getD` (the theorems
show the access is in bounds on well-formed states). -/
def get_real_index (v : RotatedVec T) (index : Nat) : Nat :=
  let subarray_idx := get_subarray_idx_from_array_idx index
  let subarray_start_idx := get_array_idx_from_subarray_idx subarray_idx
  let subarray_len := if subarray_idx = v.start_indexes.length - 1
    then v.data.length - subarray_start_idx else subarray_idx + 1
  let idx_offset := index - subarray_start_idx
  let pivot_offset := v.start_indexes.getD subarray_idx 0
  let rotated_offset := (pivot_offset + idx_offset) % subarray_len
  subarray_start_idx + rotated_offset

/-- `pub fn get(&self, index: usize) -> Option<&T>`.  The final backing
read `self.data[real_idx]` is modelled with `getElem?`, so a `none` for an
in-range `index` would correspond to the Rust panic. -/
def get? (v : RotatedVec T) (index : Nat) : Option T :=
  if v.data.length ≤ index then none
  else v.data[v.get_real_index index]?

/-- `pub fn get_mut(&mut self, index: usize) -> Option<&mut T>`: the lookup
path is identical to `get`. -/
def get_mut? (v : RotatedVec T) (index : Nat) : Option T :=
  if v.data.length ≤ index then none
  else v.data[v.get_real_index index]?

/-- `fn init(&mut self)`: given the data array, initialize the offset array
with zeroes (`vec![0; last_subarray_idx + 1]`). -/
def initTable {T : Type} (data : List T) : List Nat :=
  if data.length = 0 then []
  else List.replicate (get_subarray_idx_from_array_idx (data.length - 1) + 1) 0

/-- `impl From<Vec<T>> for RotatedVec<T>`: take the vector as the backing
store and run `init`. -/
def fromVec (l : List T) : RotatedVec T := ⟨l, initTable l⟩

/-- The cascade loop inside `insert`: iterates over
`start_indexes[next_subarray_idx..]`, setting the first (pivot) slot of each
subarray to the last element of its predecessor; breaks before a non-full
last subarray. -/
def insertCascade (fuel : Nat) (data : List T) (si : List Nat) (cur : Nat) (carried : T)
    (max_subarray_idx : Nat) (last_subarray_full : Bool) :
    List T × List Nat × T :=
  match fuel with
  | 0 => (data, si, carried)
  | fuel + 1 =>
    if cur < si.length then
      if cur = max_subarray_idx ∧ ¬ last_subarray_full then (data, si, carried)
      else
        let p := si.getD cur 0
        let end_offset := if p = 0 then cur else p - 1
        let end_idx := end_offset + get_array_idx_from_subarray_idx cur
        let next_end := data.getD end_idx carried
        insertCascade fuel (data.set end_idx carried) (si.set cur end_offset)
          (cur + 1) next_end max_subarray_idx last_subarray_full
    else (data, si, carried)

/-- `pub fn insert(&mut self, index: usize, element: T)`.  The Rust
`assert!(index <= self.len())` is a precondition of the theorems. -/
def insert (v : RotatedVec T) (index : Nat) (element : T) : RotatedVec T :=
  let insert_idx := if index < v.len then v.get_real_index index else v.len
  let subarray_idx := get_subarray_idx_from_array_idx insert_idx
  -- create a new subarray if necessary
  let v1 : RotatedVec T :=
    if subarray_idx = v.start_indexes.length
    then ⟨v.data, v.start_indexes ++ [0]⟩ else v
  let subarray_offset := get_array_idx_from_subarray_idx subarray_idx
  if subarray_idx = v1.start_indexes.length - 1 ∧ ¬ v1.is_last_subarray_full then
    ⟨v1.data.insertIdx insert_idx element, v1.start_indexes⟩
  else
    let next_subarray_offset := get_array_idx_from_subarray_idx (subarray_idx + 1)
    let subarray := (v1.data.drop subarray_offset).take (next_subarray_offset - subarray_offset)
    let pivot_offset := v1.start_indexes.getD subarray_idx 0
    let insert_offset := insert_idx - subarray_offset
    let end_offset := if pivot_offset = 0 then subarray.length - 1 else pivot_offset - 1
    let prev_end_elem := subarray.getD end_offset default
    let step :=
      if end_offset < pivot_offset ∧ pivot_offset ≤ insert_offset then
        ((copy_within subarray pivot_offset insert_offset end_offset).set (insert_offset - 1) element,
         v1.start_indexes.set subarray_idx end_offset)
      else
        ((copy_within subarray insert_offset end_offset (insert_offset + 1)).set insert_offset element,
         v1.start_indexes)
    let data2 := v1.data.take subarray_offset ++ step.1 ++ v1.data.drop next_subarray_offset
    let si2 := step.2
    let max_subarray_idx := si2.length - 1
    let last_subarray_full : Bool := data2.length == get_array_idx_from_subarray_idx si2.length
    let c := insertCascade si2.length data2 si2 (subarray_idx + 1) prev_end_elem max_subarray_idx last_subarray_full
    if last_subarray_full then
      ⟨c.1 ++ [c.2.2], c.2.1 ++ [0]⟩
    else
      ⟨c.1.insertIdx (get_array_idx_from_subarray_idx max_subarray_idx) c.2.2, c.2.1⟩

/-- The "easy exchange" loop inside `remove`: iterates over
`start_indexes[next_subarray_idx..max_subarray_idx]`, moving each
subarray's logical-first element back into the hole left by its
predecessor and advancing its pivot offset (wrapping at capacity). -/
def removeCascade (fuel : Nat) (data : List T) (si : List Nat)
    (cur prev_end_offset max_subarray_idx : Nat) :
    List T × List Nat × Nat :=
  match fuel with
  | 0 => (data, si, prev_end_offset)
  | fuel + 1 =>
    if cur < max_subarray_idx then
      let p := si.getD cur 0
      let prev_end_idx := prev_end_offset + get_array_idx_from_subarray_idx (cur - 1)
      let data' := data.set prev_end_idx (data.getD (get_array_idx_from_subarray_idx cur + p) default)
      let new_start_offset := if p = cur then 0 else p + 1
      removeCascade fuel data' (si.set cur new_start_offset) (cur + 1) p max_subarray_idx
    else (data, si, prev_end_offset)

/-- `pub fn remove(&mut self, index: usize) -> T`, returning the new state
and the value `self.data.remove(..)` yields.  The Rust
`assert!(index < self.len())` is a precondition of the theorems. -/
def remove (v : RotatedVec T) (index : Nat) : RotatedVec T × T :=
  let remove_idx0 := v.get_real_index index
  let max_subarray_idx := v.start_indexes.length - 1
  let max_subarray_offset := get_array_idx_from_subarray_idx max_subarray_idx
  let subarray_idx := get_subarray_idx_from_array_idx remove_idx0
  let subarray_offset := get_array_idx_from_subarray_idx subarray_idx
  let mri0 := if subarray_idx = max_subarray_idx then remove_idx0 else max_subarray_offset
  -- if the last subarray was rotated, un-rotate it (`data[max_subarray_offset..].rotate_left(..)`)
  let st :=
    if v.is_last_subarray_full then
      let last_start_offset := v.start_indexes.getD max_subarray_idx 0
      let v' : RotatedVec T :=
        ⟨v.data.take max_subarray_offset ++ (v.data.drop max_subarray_offset).rotate last_start_offset,
         v.start_indexes.set max_subarray_idx 0⟩
      if subarray_idx = max_subarray_idx then
        let r := v'.get_real_index index
        (v', r, r)
      else (v', remove_idx0, mri0)
    else (v, remove_idx0, mri0)
  let v2 := st.1
  let remove_idx := st.2.1
  let max_subarray_remove_idx := st.2.2
  let v3 : RotatedVec T :=
    if subarray_idx < max_subarray_idx then
      let next_subarray_offset := get_array_idx_from_subarray_idx (subarray_idx + 1)
      let subarray := (v2.data.drop subarray_offset).take (next_subarray_offset - subarray_offset)
      let pivot_offset := v2.start_indexes.getD subarray_idx 0
      let remove_offset := remove_idx - subarray_offset
      let end_offset := if pivot_offset = 0 then subarray.length - 1 else pivot_offset - 1
      let step :=
        if end_offset < pivot_offset ∧ pivot_offset ≤ remove_offset then
          (copy_within subarray pivot_offset remove_offset (pivot_offset + 1),
           v2.start_indexes.set subarray_idx
             (if pivot_offset = subarray.length - 1 then 0 else pivot_offset + 1),
           pivot_offset)
        else
          (copy_within subarray (remove_offset + 1) (end_offset + 1) remove_offset,
           v2.start_indexes, end_offset)
      let data2 := v2.data.take subarray_offset ++ step.1 ++ v2.data.drop next_subarray_offset
      let c := removeCascade max_subarray_idx data2 step.2.1 (subarray_idx + 1) step.2.2 max_subarray_idx
      let prev_end_idx := c.2.2 + get_array_idx_from_subarray_idx (max_subarray_idx - 1)
      ⟨(c.1.set prev_end_idx (c.1.getD max_subarray_offset default)), c.2.1⟩
    else v2
  let element := v3.data.getD max_subarray_remove_idx default
  let data4 := v3.data.eraseIdx max_subarray_remove_idx
  let si4 := if max_subarray_offset = data4.length then v3.start_indexes.dropLast
             else v3.start_indexes
  (⟨data4, si4⟩, element)

/-- `pub fn push(&mut self, value: T) { self.insert(self.len(), value); }` -/
def push (v : RotatedVec T) (value : T) : RotatedVec T := v.insert v.len value

/-- `pub fn pop(&mut self) -> Option<T>`. -/
def pop (v : RotatedVec T) : RotatedVec T × Option T :=
  if v.is_empty then (v, none)
  else
    let r := v.remove (v.len - 1)
    (r.1, some r.2)

/-- `fn unrotate_last_subarray(&mut self)`. -/
def unrotate_last_subarray (v : RotatedVec T) : RotatedVec T :=
  let last_subarray_idx := get_subarray_idx_from_array_idx (v.len - 1)
  let last_subarray_start_idx := get_array_idx_from_subarray_idx last_subarray_idx
  let last_subarray_len := if last_subarray_idx = v.start_indexes.length - 1
    then v.len - last_subarray_start_idx else last_subarray_idx + 1
  let last_subarray_end_idx := last_subarray_start_idx + last_subarray_len
  let pivot_offset := v.start_indexes.getD last_subarray_idx 0
  ⟨v.data.take last_subarray_start_idx
     ++ ((v.data.drop last_subarray_start_idx).take (last_subarray_end_idx - last_subarray_start_idx)).rotate pivot_offset
     ++ v.data.drop last_subarray_end_idx,
   v.start_indexes.set last_subarray_idx 0⟩

/-- `pub fn truncate(&mut self, len: usize)`. -/
def truncate (v : RotatedVec T) (len : Nat) : RotatedVec T :=
  if v.data.length ≤ len then v
  else
    let v1 := v.unrotate_last_subarray
    let last_subarray_idx := get_subarray_idx_from_array_idx (v1.len - 1)
    ⟨v1.data.take len, v1.start_indexes.take (last_subarray_idx + 1)⟩

/-- `Vec::resize(new_len, value)`. -/
def listResize (l : List Nat) (n d : Nat) : List Nat :=
  if n ≤ l.length then l.take n else l ++ List.replicate (n - l.length) d

/-- `pub fn append(&mut self, other: &mut Self)`: returns the pair
(new `self`, new `other`); `other` ends cleared. -/
def append (v other : RotatedVec T) : RotatedVec T × RotatedVec T :=
  let v1 := if ¬ v.is_last_subarray_full then v.unrotate_last_subarray else v
  let data' := v1.data ++ other.data
  let last_subarray_idx := get_subarray_idx_from_array_idx (data'.length - 1)
  (⟨data', listResize v1.start_indexes (last_subarray_idx + 1) 0⟩, ⟨[], []⟩)

/-- `impl Extend<T> for RotatedVec<T>`: same as `append` but the incoming
elements come from an iterator and there is no source container to clear. -/
def extendRV (v : RotatedVec T) (l : List T) : RotatedVec T :=
  let v1 := if ¬ v.is_last_subarray_full then v.unrotate_last_subarray else v
  let data' := v1.data ++ l
  let last_subarray_idx := get_subarray_idx_from_array_idx (data'.length - 1)
  ⟨data', listResize v1.start_indexes (last_subarray_idx + 1) 0⟩

end RotatedVec

end RotVec


namespace RotVec

namespace RotatedVec

variable {T : Type}

/-- Length of subarray `k` as computed by the source (`subarray_len` inside
`get_real_index`, `unrotate_last_subarray` and `Into<Vec>`): the last
subarray in use extends to the end of the backing store, every other
subarray has its full capacity `k + 1`. -/
def subarrayLen (v : RotatedVec T) (k : Nat) : Nat :=
  if k = v.start_indexes.length - 1 then v.data.length - get_array_idx_from_subarray_idx k
  else k + 1

/-- The physical contents of subarray `k`: the slice
`data[T(k) .. T(k) + subarrayLen k]`. -/
def chunk (v : RotatedVec T) (k : Nat) : List T :=
  (v.data.drop (get_array_idx_from_subarray_idx k)).take (v.subarrayLen k)

/-- The logical contents of subarray `k`: its physical slice rotated left by
its pivot offset (logical element `t` sits at physical offset
`(pivot + t) % subarrayLen`). -/
def block (v : RotatedVec T) (k : Nat) : List T :=
  (v.chunk k).rotate (v.start_indexes.getD k 0)

/-- The logical contents of the whole container: the concatenation of the
logical contents of its subarrays.  This is the reference semantics against
which `get`, iteration and the mutating operations are verified. -/
def logicalList (v : RotatedVec T) : List T :=
  ((List.range v.start_indexes.length).map v.block).flatten

/-- Well-formedness of a container state, from `assert_invariants` in the
source (index-table length matches the occupied subarrays; each pivot
offset lies within its subarray) together with the invariant relied on by
`insert` (`debug_assert!(self.start_indexes[subarray_idx] == 0)` on the
partially-filled last subarray): a partially filled last subarray is
unrotated. -/
def WF (v : RotatedVec T) : Prop :=
  v.start_indexes.length =
    (if v.data.length = 0 then 0 else get_subarray_idx_from_array_idx (v.data.length - 1) + 1)
  ∧ (∀ k, k < v.start_indexes.length → v.start_indexes.getD k 0 ≤ k)
  ∧ (v.data.length < get_array_idx_from_subarray_idx v.start_indexes.length →
      v.start_indexes.getD (v.start_indexes.length - 1) 0 = 0)

instance (v : RotatedVec T) : Decidable (WF v) := by
  unfold WF; infer_instance

/-- The invariant claimed for every public operation: whenever the last
subarray (the one holding the final element) is only partially filled, its
pivot offset is 0 (natural, unrotated order). -/
def lastSubarrayInvariant (v : RotatedVec T) : Prop :=
  v.data.length ≠ 0 →
    v.data.length <
        get_array_idx_from_subarray_idx (get_subarray_idx_from_array_idx (v.data.length - 1) + 1) →
      v.start_indexes.getD (get_subarray_idx_from_array_idx (v.data.length - 1)) 0 = 0

instance (v : RotatedVec T) : Decidable (lastSubarrayInvariant v) := by
  unfold lastSubarrayInvariant; infer_instance

/-- `pub fn sort(&mut self)`: sort the backing store with a stable
comparison sort (modelled by `List.insertionSort`, also stable), then reset
every entry of the index table to 0. -/
def sortRV {T : Type} [LinearOrder T] (v : RotatedVec T) : RotatedVec T :=
  ⟨v.data.insertionSort (fun a b => a ≤ b), v.start_indexes.map (fun _ => 0)⟩

/-- `pub fn sort_unstable(&mut self)`: an in-place comparison sort followed
by the same index-table reset.  Modelled with the same sorting function:
the verified properties (sortedness, multiset preservation, zeroed table)
are shared by any correct comparison sort. -/
def sort_unstable {T : Type} [LinearOrder T] (v : RotatedVec T) : RotatedVec T :=
  ⟨v.data.insertionSort (fun a b => a ≤ b), v.start_indexes.map (fun _ => 0)⟩

/-- One iteration of the `Into<Vec<T>>` loop: un-rotate subarray `i` of the
working buffer `d` in place. -/
def intoVecStep (v : RotatedVec T) (d : List T) (i : Nat) : List T :=
  let subarray_start_idx := get_array_idx_from_subarray_idx i
  let subarray_len := if i = v.start_indexes.length - 1
    then d.length - subarray_start_idx else i + 1
  let subarray_end_idx := subarray_start_idx + subarray_len
  d.take subarray_start_idx
    ++ ((d.drop subarray_start_idx).take (subarray_end_idx - subarray_start_idx)).rotate
        (v.start_indexes.getD i 0)
    ++ d.drop subarray_end_idx

/-- The `Into<Vec<T>>` loop over all subarrays (ascending `i`), with an
explicit recursion bound (the loop runs `start_indexes.length` times). -/
def intoVecAux (fuel : Nat) (v : RotatedVec T) (d : List T) (i : Nat) : List T :=
  match fuel with
  | 0 => d
  | fuel + 1 =>
    if i < v.start_indexes.length then intoVecAux fuel v (intoVecStep v d i) (i + 1) else d

/-- `impl Into<Vec<T>> for RotatedVec<T>`: un-rotate every subarray in
place, then hand over the backing store. -/
def intoVec (v : RotatedVec T) : List T := intoVecAux v.start_indexes.length v v.data 0

/-- Push each element of `l` in order (`for v in iter { vec.push(v) }`). -/
def pushAll [Inhabited T] (v : RotatedVec T) (l : List T) : RotatedVec T :=
  l.foldl (fun acc x => acc.push x) v

/-- Call `pop` `k` times, collecting the returned values in order. -/
def popTimes [Inhabited T] (v : RotatedVec T) (k : Nat) : List (Option T) × RotatedVec T :=
  match k with
  | 0 => ([], v)
  | k + 1 =>
    let p := v.pop
    let r := popTimes p.1 k
    (p.2 :: r.1, r.2)

/-- `pub fn new() -> Self`. -/
def new {T : Type} : RotatedVec T := ⟨[], []⟩

end RotatedVec

/-- Checked `usize` subtraction: Rust `a - b` is a precondition violation
(an overflow panic in checked builds) when `b > a`; `none` models that. -/
def checkedSub (a b : Nat) : Option Nat := if b ≤ a then some (a - b) else none

/-- Cursor state shared by `Iter` and `IterMut`: the front (`next_index`)
and rear (`next_rev_index`) logical positions. -/
structure IterSt where
  next_index : Nat
  next_rev_index : Nat
deriving DecidableEq

namespace RotatedVec

/-- `pub fn iter(&self) -> Iter<T>`: the cursor starts at
`next_index = 0`, `next_rev_index = self.len() - 1`; the subtraction
underflows on an empty container. -/
def iterInit? {T : Type} (v : RotatedVec T) : Option IterSt :=
  (checkedSub v.len 1).map (fun r => ⟨0, r⟩)

/-- `pub fn iter_mut(&mut self) -> IterMut<T>`: computes the same cursor
initialization as `iter`. -/
def iterMutInit? {T : Type} (v : RotatedVec T) : Option IterSt :=
  (checkedSub v.len 1).map (fun r => ⟨0, r⟩)

/-- `impl Iterator for Iter: fn next`: `None` once the front cursor passes
the rear cursor, otherwise the result of `self.container.get(self.next_index)`
with the front cursor advanced. -/
def iterNextF [Inhabited T] (v : RotatedVec T) (st : IterSt) : Option T × IterSt :=
  if st.next_rev_index < st.next_index then (none, st)
  else (v.get? st.next_index, ⟨st.next_index + 1, st.next_rev_index⟩)

/-- The values produced by repeatedly calling `next` from the cursor
`(ni, nri)` until it yields `None` (with an explicit recursion bound;
the cursor crosses after at most `nri + 1 - ni` steps). -/
def iterTraverse [Inhabited T] (fuel : Nat) (v : RotatedVec T) (ni nri : Nat) :
    List (Option T) :=
  match fuel with
  | 0 => []
  | fuel + 1 => if nri < ni then [] else v.get? ni :: iterTraverse fuel v (ni + 1) nri

end RotatedVec


/-! ### Triangular-number arithmetic -/

theorem integer_sum_zero : integer_sum 0 = 0 := rfl

theorem integer_sum_succ (k : Nat) : integer_sum (k + 1) = integer_sum k + (k + 1) := by
  have h : (k + 1) * (k + 1 + 1) = k * (k + 1) + 2 * (k + 1) := by ring
  unfold integer_sum
  omega

theorem integer_sum_mono {k j : Nat} (h : k ≤ j) : integer_sum k ≤ integer_sum j :=
  Nat.div_le_div_right (Nat.mul_le_mul h (by omega))

theorem integer_sum_lt_succ (k : Nat) : integer_sum k < integer_sum (k + 1) := by
  rw [integer_sum_succ]; omega

theorem gai_eq (k : Nat) : get_array_idx_from_subarray_idx k = integer_sum k := by
  unfold get_array_idx_from_subarray_idx
  split
  · subst k; rfl
  · rfl

theorem sqrtFuel_spec : ∀ (fuel n : Nat), n ≤ fuel →
    sqrtFuel fuel n * sqrtFuel fuel n ≤ n ∧
      n < (sqrtFuel fuel n + 1) * (sqrtFuel fuel n + 1) := by
  intro fuel
  induction fuel with
  | zero =>
    intro n h
    have hn : n = 0 := by omega
    subst hn
    simp [sqrtFuel]
  | succ fuel ih =>
    intro n h
    by_cases h0 : n = 0
    · subst h0
      simp [sqrtFuel]
    · have hle : n / 4 ≤ fuel := by omega
      obtain ⟨ih1, ih2⟩ := ih (n / 4) hle
      have e1 : (2 * sqrtFuel fuel (n / 4) + 1 + 1) * (2 * sqrtFuel fuel (n / 4) + 1 + 1)
          = 4 * ((sqrtFuel fuel (n / 4) + 1) * (sqrtFuel fuel (n / 4) + 1)) := by ring
      have e2 : (2 * sqrtFuel fuel (n / 4)) * (2 * sqrtFuel fuel (n / 4))
          = 4 * (sqrtFuel fuel (n / 4) * sqrtFuel fuel (n / 4)) := by ring
      simp only [sqrtFuel, if_neg h0]
      by_cases hc : (2 * sqrtFuel fuel (n / 4) + 1) * (2 * sqrtFuel fuel (n / 4) + 1) ≤ n
      · rw [if_pos hc]
        refine ⟨hc, ?_⟩
        omega
      · rw [if_neg hc]
        refine ⟨?_, by omega⟩
        rw [e2]
        omega

theorem isqrt_spec (n : Nat) :
    isqrt n * isqrt n ≤ n ∧ n < (isqrt n + 1) * (isqrt n + 1) :=
  sqrtFuel_spec n n (Nat.le_refl n)

theorem sub_spec (p : Nat) (hp : p ≤ lenBound) :
    integer_sum (get_subarray_idx_from_array_idx p) ≤ p ∧
      p < integer_sum (get_subarray_idx_from_array_idx p + 1) := by
  by_cases h0 : p = 0
  · subst h0
    simp [get_subarray_idx_from_array_idx, integer_sum]
  · have hmod : (p * 8 + 1) % 4294967296 = p * 8 + 1 := by
      apply Nat.mod_eq_of_lt
      have : p ≤ 536870911 := hp
      omega
    have hsub : get_subarray_idx_from_array_idx p = (isqrt (p * 8 + 1) - 1) / 2 := by
      unfold get_subarray_idx_from_array_idx integer_sum_inverse
      rw [hmod]
      simp [h0]
    set s := isqrt (p * 8 + 1) with hs
    obtain ⟨hs1, hs2⟩ := isqrt_spec (p * 8 + 1)
    rw [← hs] at hs1 hs2
    have hsge : 1 ≤ s := by
      rcases Nat.eq_zero_or_pos s with hz | hpos
      · rw [hz] at hs2
        omega
      · exact hpos
    set k := (s - 1) / 2 with hk
    have hk1 : 2 * k + 1 ≤ s := by omega
    have hk2 : s ≤ 2 * k + 2 := by omega
    have hlow : (2 * k + 1) * (2 * k + 1) ≤ s * s := Nat.mul_le_mul hk1 hk1
    have hhigh : (s + 1) * (s + 1) ≤ (2 * k + 3) * (2 * k + 3) :=
      Nat.mul_le_mul (by omega) (by omega)
    have hsq1 : (2 * k + 1) * (2 * k + 1) = 4 * (k * (k + 1)) + 1 := by ring
    have hsq2 : (2 * k + 3) * (2 * k + 3) = 4 * ((k + 1) * (k + 1 + 1)) + 1 := by ring
    obtain ⟨j, hj⟩ := Nat.even_mul_succ_self k
    obtain ⟨j2, hj2⟩ := Nat.even_mul_succ_self (k + 1)
    rw [hsub]
    constructor
    · unfold integer_sum
      omega
    · unfold integer_sum
      omega

theorem sub_eq {p k : Nat} (hp : p ≤ lenBound) (h1 : integer_sum k ≤ p)
    (h2 : p < integer_sum (k + 1)) : get_subarray_idx_from_array_idx p = k := by
  obtain ⟨g1, g2⟩ := sub_spec p hp
  set g := get_subarray_idx_from_array_idx p with hg
  rcases Nat.lt_trichotomy g k with h | h | h
  · have : integer_sum (g + 1) ≤ integer_sum k := integer_sum_mono (by omega)
    omega
  · exact h
  · have : integer_sum (k + 1) ≤ integer_sum g := integer_sum_mono (by omega)
    omega

end RotVec

namespace RotVec

/-! ### Access into a concatenation of blocks -/

/-- Sum of the lengths of the first `j` blocks. -/
def sumLen {T : Type} (bs : List (List T)) (j : Nat) : Nat :=
  ((bs.take j).map List.length).sum

theorem sumLen_zero {T : Type} (bs : List (List T)) : sumLen bs 0 = 0 := rfl

theorem sumLen_succ {T : Type} (bs : List (List T)) (j : Nat) (h : j < bs.length) :
    sumLen bs (j + 1) = sumLen bs j + (bs.getD j []).length := by
  unfold sumLen
  rw [List.take_succ, List.map_append, List.sum_append]
  congr 1
  rw [List.getElem?_eq_getElem h]
  simp [List.getD, List.getElem?_eq_getElem h]

theorem flatten_getElem_block {T : Type} (bs : List (List T)) (j i : Nat) (hj : j < bs.length)
    (h1 : sumLen bs j ≤ i) (h2 : i < sumLen bs j + (bs.getD j []).length) :
    bs.flatten[i]? = (bs.getD j [])[i - sumLen bs j]? := by
  induction bs generalizing j i with
  | nil => simp at hj
  | cons b t ih =>
    cases j with
    | zero =>
      rw [sumLen_zero] at h2
      simp only [sumLen_zero, Nat.sub_zero, List.getD_cons_zero] at *
      rw [List.flatten_cons, List.getElem?_append_left (by omega)]
    | succ j =>
      have hs : sumLen (b :: t) (j + 1) = b.length + sumLen t j := by
        unfold sumLen
        rw [List.take_succ_cons, List.map_cons, List.sum_cons]
      rw [hs] at h1 h2
      rw [List.getD_cons_succ] at h2 ⊢
      rw [List.flatten_cons, List.getElem?_append_right (by omega)]
      rw [ih j (i - b.length) (by simpa using hj) (by omega) (by omega)]
      congr 1
      omega

theorem blocks_getD {T : Type} (f : Nat → List T) (c k : Nat) (hk : k < c) :
    ((List.range c).map f).getD k [] = f k := by
  rw [List.getD_eq_getElem?_getD, List.getElem?_map, List.getElem?_range hk]
  rfl

namespace RotatedVec

variable {T : Type}

/-! ### Facts about well-formed states -/

theorem wf_si_len {v : RotatedVec T} (hwf : WF v) (hn : v.data.length ≠ 0) :
    v.start_indexes.length = get_subarray_idx_from_array_idx (v.data.length - 1) + 1 := by
  have h := hwf.1
  rw [if_neg hn] at h
  exact h

theorem wf_si_nil {v : RotatedVec T} (hwf : WF v) (hn : v.data.length = 0) :
    v.start_indexes = [] := by
  have h := hwf.1
  rw [if_pos hn] at h
  exact List.length_eq_zero.mp h

theorem wf_nonempty {v : RotatedVec T} (hwf : WF v) (hk : 0 < v.start_indexes.length) :
    v.data.length ≠ 0 := by
  intro h
  rw [wf_si_nil hwf h] at hk
  simp at hk

theorem wf_span {v : RotatedVec T} (hwf : WF v) (hn : v.data.length ≠ 0)
    (hb : v.data.length ≤ lenBound) :
    integer_sum (v.start_indexes.length - 1) < v.data.length ∧
      v.data.length ≤ integer_sum v.start_indexes.length := by
  have hlen := wf_si_len hwf hn
  obtain ⟨h1, h2⟩ := sub_spec (v.data.length - 1) (by unfold lenBound at *; omega)
  rw [hlen]
  simp only [Nat.add_sub_cancel]
  omega

theorem subarrayLen_spec {v : RotatedVec T} (hwf : WF v) (hb : v.data.length ≤ lenBound)
    {k : Nat} (hk : k < v.start_indexes.length) :
    0 < v.subarrayLen k ∧ v.subarrayLen k ≤ k + 1 ∧
      integer_sum k + v.subarrayLen k ≤ v.data.length ∧
      (k + 1 < v.start_indexes.length → v.subarrayLen k = k + 1) := by
  have hn : v.data.length ≠ 0 := wf_nonempty hwf (by omega)
  obtain ⟨hsp1, hsp2⟩ := wf_span hwf hn hb
  unfold subarrayLen
  rw [gai_eq]
  by_cases hlast : k = v.start_indexes.length - 1
  · subst hlast
    rw [if_pos rfl]
    have : integer_sum (v.start_indexes.length - 1 + 1) = integer_sum (v.start_indexes.length - 1) + (v.start_indexes.length - 1 + 1) := integer_sum_succ _
    have hsl : v.start_indexes.length - 1 + 1 = v.start_indexes.length := by omega
    rw [hsl] at this
    refine ⟨by omega, by omega, by omega, by omega⟩
  · rw [if_neg hlast]
    have hk1 : k + 1 ≤ v.start_indexes.length - 1 := by omega
    have : integer_sum (k + 1) ≤ integer_sum (v.start_indexes.length - 1) := integer_sum_mono hk1
    have hks : integer_sum (k + 1) = integer_sum k + (k + 1) := integer_sum_succ k
    refine ⟨by omega, by omega, by omega, fun _ => rfl⟩

theorem length_chunk {v : RotatedVec T} (hwf : WF v) (hb : v.data.length ≤ lenBound)
    {k : Nat} (hk : k < v.start_indexes.length) :
    (v.chunk k).length = v.subarrayLen k := by
  obtain ⟨h1, h2, h3, _⟩ := subarrayLen_spec hwf hb hk
  unfold chunk
  rw [List.length_take, List.length_drop, gai_eq]
  omega

theorem length_block {v : RotatedVec T} (hwf : WF v) (hb : v.data.length ≤ lenBound)
    {k : Nat} (hk : k < v.start_indexes.length) :
    (v.block k).length = v.subarrayLen k := by
  unfold block
  rw [List.length_rotate, length_chunk hwf hb hk]

theorem pivot_lt_subarrayLen {v : RotatedVec T} (hwf : WF v) (hb : v.data.length ≤ lenBound)
    {k : Nat} (hk : k < v.start_indexes.length) :
    v.start_indexes.getD k 0 < v.subarrayLen k := by
  have hn : v.data.length ≠ 0 := wf_nonempty hwf (by omega)
  have hple := hwf.2.1 k hk
  obtain ⟨hsp1, hsp2⟩ := wf_span hwf hn hb
  unfold subarrayLen
  rw [gai_eq]
  by_cases hlast : k = v.start_indexes.length - 1
  · rw [if_pos hlast]
    by_cases hfull : v.data.length < get_array_idx_from_subarray_idx v.start_indexes.length
    · have h0 := hwf.2.2 hfull
      rw [← hlast] at h0
      rw [h0]
      subst hlast
      omega
    · rw [gai_eq] at hfull
      subst hlast
      have hsl : v.start_indexes.length - 1 + 1 = v.start_indexes.length := by omega
      have := integer_sum_succ (v.start_indexes.length - 1)
      rw [hsl] at this
      omega
  · rw [if_neg hlast]
    omega

theorem sumLen_blocks {v : RotatedVec T} (hwf : WF v) (hb : v.data.length ≤ lenBound)
    {k : Nat} (hk : k ≤ v.start_indexes.length) :
    sumLen ((List.range v.start_indexes.length).map v.block) k =
      min (integer_sum k) v.data.length := by
  induction k with
  | zero => simp [sumLen_zero, integer_sum_zero]
  | succ k ih =>
    have hklt : k < v.start_indexes.length := by omega
    have hn : v.data.length ≠ 0 := wf_nonempty hwf (by omega)
    obtain ⟨hsp1, hsp2⟩ := wf_span hwf hn hb
    rw [sumLen_succ _ _ (by simpa using hklt), ih (by omega),
      blocks_getD v.block _ _ hklt, length_block hwf hb hklt]
    obtain ⟨h1, h2, h3, h4⟩ := subarrayLen_spec hwf hb hklt
    have hks : integer_sum (k + 1) = integer_sum k + (k + 1) := integer_sum_succ k
    by_cases hlast : k + 1 < v.start_indexes.length
    · rw [h4 hlast]
      have : integer_sum (k + 1) ≤ integer_sum (v.start_indexes.length - 1) :=
        integer_sum_mono (by omega)
      omega
    · have hkeq : k = v.start_indexes.length - 1 := by omega
      unfold subarrayLen
      rw [if_pos hkeq, gai_eq]
      have hsl : k + 1 = v.start_indexes.length := by omega
      rw [hsl]
      omega

theorem length_logicalList {v : RotatedVec T} (hwf : WF v) (hb : v.data.length ≤ lenBound) :
    (logicalList v).length = v.data.length := by
  by_cases hn : v.data.length = 0
  · unfold logicalList
    rw [wf_si_nil hwf hn, hn]
    simp
  · have := sumLen_blocks hwf hb (k := v.start_indexes.length) (le_refl _)
    obtain ⟨hsp1, hsp2⟩ := wf_span hwf hn hb
    unfold logicalList
    rw [List.length_flatten]
    unfold sumLen at this
    rw [List.take_of_length_le (by simp)] at this
    omega

theorem sub_lt_si_length {v : RotatedVec T} (hwf : WF v) (hb : v.data.length ≤ lenBound)
    {i : Nat} (hi : i < v.data.length) :
    get_subarray_idx_from_array_idx i < v.start_indexes.length ∧
      integer_sum (get_subarray_idx_from_array_idx i) ≤ i ∧
      i < integer_sum (get_subarray_idx_from_array_idx i + 1) := by
  have hn : v.data.length ≠ 0 := by omega
  obtain ⟨h1, h2⟩ := sub_spec i (by unfold lenBound at *; omega)
  obtain ⟨hsp1, hsp2⟩ := wf_span hwf hn hb
  refine ⟨?_, h1, h2⟩
  by_contra hge
  have : integer_sum v.start_indexes.length ≤ integer_sum (get_subarray_idx_from_array_idx i) :=
    integer_sum_mono (by omega)
  omega

theorem logicalList_getElem {v : RotatedVec T} (hwf : WF v) (hb : v.data.length ≤ lenBound)
    {i : Nat} (hi : i < v.data.length) :
    (logicalList v)[i]? =
      (v.block (get_subarray_idx_from_array_idx i))[i - integer_sum (get_subarray_idx_from_array_idx i)]? := by
  obtain ⟨hk, h1, h2⟩ := sub_lt_si_length hwf hb hi
  set k := get_subarray_idx_from_array_idx i with hkdef
  unfold logicalList
  rw [flatten_getElem_block _ k i (by simpa using hk)
      (by rw [sumLen_blocks hwf hb (by omega)]; omega)
      ?_ ,
    blocks_getD v.block _ _ hk, sumLen_blocks hwf hb (by omega)]
  · congr 1
    omega
  · rw [sumLen_blocks hwf hb (by omega), blocks_getD v.block _ _ hk, length_block hwf hb hk]
    obtain ⟨hL1, hL2, hL3, hL4⟩ := subarrayLen_spec hwf hb hk
    have hks : integer_sum (k + 1) = integer_sum k + (k + 1) := integer_sum_succ k
    by_cases hlast : k + 1 < v.start_indexes.length
    · rw [hL4 hlast]
      omega
    · unfold subarrayLen
      rw [if_pos (by omega), gai_eq]
      omega

theorem get_real_index_eq {v : RotatedVec T} {i : Nat} :
    v.get_real_index i =
      integer_sum (get_subarray_idx_from_array_idx i) +
        (v.start_indexes.getD (get_subarray_idx_from_array_idx i) 0 +
            (i - integer_sum (get_subarray_idx_from_array_idx i))) %
          v.subarrayLen (get_subarray_idx_from_array_idx i) := by
  simp only [get_real_index, subarrayLen, gai_eq]

theorem offset_lt_subarrayLen {v : RotatedVec T} (hwf : WF v) (hb : v.data.length ≤ lenBound)
    {i : Nat} (hi : i < v.data.length) :
    i - integer_sum (get_subarray_idx_from_array_idx i) <
      v.subarrayLen (get_subarray_idx_from_array_idx i) := by
  obtain ⟨hk, h1, h2⟩ := sub_lt_si_length hwf hb hi
  obtain ⟨hL1, hL2, hL3, hL4⟩ := subarrayLen_spec hwf hb hk
  have hks := integer_sum_succ (get_subarray_idx_from_array_idx i)
  by_cases hlast : get_subarray_idx_from_array_idx i + 1 < v.start_indexes.length
  · rw [hL4 hlast]
    omega
  · unfold subarrayLen
    rw [if_pos (by omega), gai_eq]
    omega

theorem data_getElem_real {v : RotatedVec T} (hwf : WF v) (hb : v.data.length ≤ lenBound)
    {i : Nat} (hi : i < v.data.length) :
    v.data[v.get_real_index i]? = (logicalList v)[i]? ∧
      v.get_real_index i < v.data.length := by
  obtain ⟨hk, h1, h2⟩ := sub_lt_si_length hwf hb hi
  obtain ⟨hL1, hL2, hL3, hL4⟩ := subarrayLen_spec hwf hb hk
  have hchunk := length_chunk hwf hb hk
  have hpiv := pivot_lt_subarrayLen hwf hb hk
  have ht := offset_lt_subarrayLen hwf hb hi
  have hr : (v.start_indexes.getD (get_subarray_idx_from_array_idx i) 0 +
      (i - integer_sum (get_subarray_idx_from_array_idx i))) %
        v.subarrayLen (get_subarray_idx_from_array_idx i) <
      v.subarrayLen (get_subarray_idx_from_array_idx i) := Nat.mod_lt _ hL1
  refine ⟨?_, by rw [get_real_index_eq]; omega⟩
  rw [get_real_index_eq, logicalList_getElem hwf hb hi]
  unfold block
  rw [List.getElem?_rotate (by rw [hchunk]; exact ht), hchunk]
  unfold chunk
  rw [List.getElem?_take_of_lt (by rw [Nat.add_comm]; exact hr), List.getElem?_drop, gai_eq,
    Nat.add_comm (i - integer_sum (get_subarray_idx_from_array_idx i))]
end RotatedVec

end RotVec

namespace RotVec

open RotatedVec

/-! ### Claim C2 -/

/-- C2 counterexample: at `p = 536870912` the `u32` cast inside
`integer_sum_inverse` wraps (`8p + 1 = 2^32 + 1` truncates to `1`), so
`get_subarray_idx_from_array_idx` returns `0`, which does not satisfy
`T(0) ≤ p < T(1)`; the claim's "for every representable p" fails. -/
theorem C2_counterexample :
    get_subarray_idx_from_array_idx 536870912 = 0 ∧
      ¬ (integer_sum 0 ≤ 536870912 ∧ 536870912 < integer_sum (0 + 1)) := by
  constructor
  · decide
  · decide

/-- C2 (amended): for every `p` such that `8p + 1` fits in 32 bits
(equivalently `p ≤ lenBound = 536870911`), `get_subarray_idx_from_array_idx p`
is the unique `k` with `T(k) ≤ p < T(k + 1)` (where `T = integer_sum`). -/
theorem C2_amended (p : Nat) (hp : p ≤ lenBound) (k : Nat) :
    (integer_sum k ≤ p ∧ p < integer_sum (k + 1)) ↔
      get_subarray_idx_from_array_idx p = k := by
  constructor
  · intro h
    exact sub_eq hp h.1 h.2
  · intro h
    obtain ⟨h1, h2⟩ := sub_spec p hp
    rw [h] at h1 h2
    exact ⟨h1, h2⟩

/-- Witness for C2 (amended) at `p = 10`: the subarray lookup returns `4`
because `T(4) = 10 ≤ 10 < 15 = T(5)`. -/
theorem C2_witness : get_subarray_idx_from_array_idx 10 = 4 :=
  (C2_amended 10 (by decide) 4).mp (by decide)

/-! ### Claim C1 -/

/-- C1 (code bug): on the container built from `vec![1, 2]`, `insert(0, 9)`
produces logical contents `[9, 1, 2]` (a well-formed state), but
`remove(0)` then returns `1` rather than the inserted value `9`, even
though the length is restored to 2 and the remaining logical contents are
`[1, 2]`.  Whenever the removal index lies outside the last subarray,
`remove` overwrites the target element during the shift and returns
`self.data.remove(max_subarray_remove_idx)`, the logically first element of
the last subarray.  This contradicts the crate's own property test
`insert_remove` (`v.insert(i, x); prop_assert_eq!(v.remove(i), x)`) and
`remove`'s documentation ("Removes and returns the element at position
`index`"). -/
theorem C1_code_bug :
    logicalList ((fromVec ([1, 2] : List Nat)).insert 0 9) = [9, 1, 2] ∧
      WF ((fromVec ([1, 2] : List Nat)).insert 0 9) ∧
      (((fromVec ([1, 2] : List Nat)).insert 0 9).remove 0).2 = 1 ∧
      (((fromVec ([1, 2] : List Nat)).insert 0 9).remove 0).1.data.length = 2 ∧
      logicalList (((fromVec ([1, 2] : List Nat)).insert 0 9).remove 0).1 = [1, 2] ∧
      (1 : Nat) ≠ 9 := by
  refine ⟨?_, ?_, ?_, ?_, ?_, ?_⟩ <;> decide

/-! ### Claim C3 -/

/-- C3 (code bug): `truncate` computes the index-table cutoff from the OLD
length (`self.len() - 1` after only the data truncation is still pending),
so no index-table entries are ever dropped, and it un-rotates the old last
subarray instead of the new one.  Concretely: truncating the container
built from `vec![1,2,3,4,5]` to length 2 leaves `start_indexes = [0,0,0]`
although the table for 2 elements must have
`get_subarray_idx_from_array_idx 1 + 1 = 2` entries (the state fails the
code's own `assert_invariants`).  Moreover, on the well-formed 7-element
state reached by `insert(0, 9)` from `vec![1,2,3,4,5,6]` (logical element 1
is `1`), truncating to 2 leaves the new last subarray rotated, and
`get(1)` becomes an out-of-bounds backing read (`none` models the panic)
instead of returning the preserved element. -/
theorem C3_code_bug :
    ((fromVec ([1, 2, 3, 4, 5] : List Nat)).truncate 2).data = [1, 2] ∧
      ((fromVec ([1, 2, 3, 4, 5] : List Nat)).truncate 2).start_indexes = [0, 0, 0] ∧
      get_subarray_idx_from_array_idx (2 - 1) + 1 = 2 ∧
      ¬ WF ((fromVec ([1, 2, 3, 4, 5] : List Nat)).truncate 2) ∧
      WF ((fromVec ([1, 2, 3, 4, 5, 6] : List Nat)).insert 0 9) ∧
      (logicalList ((fromVec ([1, 2, 3, 4, 5, 6] : List Nat)).insert 0 9))[1]? = some 1 ∧
      (((fromVec ([1, 2, 3, 4, 5, 6] : List Nat)).insert 0 9).truncate 2).get? 1 = none := by
  refine ⟨?_, ?_, ?_, ?_, ?_, ?_, ?_⟩ <;> decide

/-! ### Claim C9 -/

/-- C9 (code bug): `truncate` does not preserve the invariant "a partially
filled last subarray has pivot offset 0".  Starting from the container
built from `vec![1,2,3,4,5,6]`, `insert(0, 9)` yields a well-formed state
satisfying the invariant, but `truncate(2)` leaves the (now partial) last
subarray with pivot offset 1 — the cutoff is computed from the old length,
so the wrong subarray is normalized and stale entries survive. -/
theorem C9_code_bug :
    WF ((fromVec ([1, 2, 3, 4, 5, 6] : List Nat)).insert 0 9) ∧
      lastSubarrayInvariant ((fromVec ([1, 2, 3, 4, 5, 6] : List Nat)).insert 0 9) ∧
      (((fromVec ([1, 2, 3, 4, 5, 6] : List Nat)).insert 0 9).truncate 2).start_indexes.getD 1 0 = 1 ∧
      ¬ lastSubarrayInvariant (((fromVec ([1, 2, 3, 4, 5, 6] : List Nat)).insert 0 9).truncate 2) := by
  refine ⟨?_, ?_, ?_, ?_⟩ <;> decide

/-! ### Claim C6 counterexample -/

/-- C6 counterexample: starting from `vec![1,2,3,4,5,6]`, `insert(1, 9)`
followed by `pop()` reaches a well-formed state whose last subarray is full
and rotated (its table entry is 2).  `append` tests `is_last_subarray_full`
— not rotation — so it does not normalize this subarray: after appending a
one-element container its entry is still 2, while the claim ("first
normalizes the current last subarray if it is rotated", after which nothing
rewrites existing entries) requires 0. -/
theorem C6_counterexample :
    WF ((((fromVec ([1, 2, 3, 4, 5, 6] : List Nat)).insert 1 9).pop).1) ∧
      (((fromVec ([1, 2, 3, 4, 5, 6] : List Nat)).insert 1 9).pop).1.is_last_subarray_full = true ∧
      (((fromVec ([1, 2, 3, 4, 5, 6] : List Nat)).insert 1 9).pop).1.start_indexes.getD 2 0 = 2 ∧
      ¬ (((((fromVec ([1, 2, 3, 4, 5, 6] : List Nat)).insert 1 9).pop).1.append
            (fromVec ([7] : List Nat))).1.start_indexes.getD 2 0 = 0) := by
  refine ⟨?_, ?_, ?_, ?_⟩ <;> decide

/-! ### Claim C8 -/

/-- C8: on every well-formed container (of representable length), `get`
and `get_mut` return `none` exactly when the index is at least `len`, and
otherwise return the element at that logical position (`logicalList`);
every internal access is in bounds (subarray lookup within the index
table, nonzero modulus, backing-store read below `len`), so they never
panic, for any index and any rotation state. -/
theorem C8_get_mut_spec {T : Type} [Inhabited T] {v : RotatedVec T} (hwf : WF v)
    (hb : v.data.length ≤ lenBound) (i : Nat) :
    (v.get? i = none ↔ v.data.length ≤ i) ∧
      v.get_mut? i = v.get? i ∧
      (i < v.data.length →
        v.get? i = (logicalList v)[i]? ∧
          v.get? i = some ((logicalList v).getD i default) ∧
          get_subarray_idx_from_array_idx i < v.start_indexes.length ∧
          0 < v.subarrayLen (get_subarray_idx_from_array_idx i) ∧
          v.get_real_index i < v.data.length) := by
  refine ⟨?_, rfl, ?_⟩
  · constructor
    · intro h
      by_contra hlt
      push_neg at hlt
      obtain ⟨heq, hreal⟩ := data_getElem_real hwf hb hlt
      unfold get? at h
      rw [if_neg (by omega)] at h
      rw [List.getElem?_eq_getElem hreal] at h
      simp at h
    · intro h
      unfold get?
      rw [if_pos h]
  · intro hlt
    obtain ⟨heq, hreal⟩ := data_getElem_real hwf hb hlt
    obtain ⟨hk, _, _⟩ := sub_lt_si_length hwf hb hlt
    obtain ⟨hL1, _, _, _⟩ := subarrayLen_spec hwf hb hk
    have hget : v.get? i = (logicalList v)[i]? := by
      unfold get?
      rw [if_neg (by omega)]
      exact heq
    refine ⟨hget, ?_, hk, hL1, hreal⟩
    rw [hget]
    have hlen : i < (logicalList v).length := by
      rw [length_logicalList hwf hb]
      exact hlt
    rw [List.getElem?_eq_getElem hlen, List.getD_eq_getElem _ _ hlen]

/-- Witness for C8 on the container built from `vec![1, 2, 3]` at indices 1
(in range: returns the logical element) and 3 (out of range: absent). -/
theorem C8_witness :
    (fromVec ([1, 2, 3] : List Nat)).get? 1 = some 2 ∧
      (fromVec ([1, 2, 3] : List Nat)).get? 3 = none := by
  have h1 := (C8_get_mut_spec (v := fromVec ([1, 2, 3] : List Nat)) (by decide) (by decide) 1).2.2
    (by decide)
  have h3 := (C8_get_mut_spec (v := fromVec ([1, 2, 3] : List Nat)) (by decide) (by decide) 3).1
  constructor
  · rw [h1.2.1]
    decide
  · exact h3.mpr (by decide)

end RotVec

namespace RotVec

namespace RotatedVec

variable {T : Type}

/-! ### Block-concatenation toolkit -/

theorem flatten_range_split (f : Nat → List T) {c j : Nat} (hj : j ≤ c) :
    ((List.range c).map f).flatten =
      ((List.range j).map f).flatten ++ ((List.range' j (c - j)).map f).flatten := by
  have hr : List.range j ++ List.range' j (c - j) = List.range c := by
    rw [List.range_eq_range', List.range_eq_range']
    have h := List.range'_append_1 0 j (c - j)
    simp only [Nat.zero_add] at h
    rw [h]
    congr 1
    omega
  rw [← hr, List.map_append, List.flatten_append]

/-- On a state whose pivot offsets from subarray `j` on are all 0, the
logical contents of subarrays `j, j+1, …` are exactly the tail of the
backing store from `T(j)` on. -/
theorem flatten_blocks_zero_tail (u : RotatedVec T)
    (hspan1 : integer_sum (u.start_indexes.length - 1) < u.data.length)
    (hspan2 : u.data.length ≤ integer_sum u.start_indexes.length) :
    ∀ d j, j + d = u.start_indexes.length →
      (∀ k, j ≤ k → k < u.start_indexes.length → u.start_indexes.getD k 0 = 0) →
      ((List.range' j d).map u.block).flatten =
        (u.data.drop (integer_sum j)).take (u.data.length - integer_sum j) := by
  intro d
  induction d with
  | zero =>
    intro j hjc _
    have hj : j = u.start_indexes.length := by omega
    subst hj
    have h0 : u.data.length - integer_sum u.start_indexes.length = 0 := by omega
    rw [h0]
    simp
  | succ d ih =>
    intro j hjc hz
    have hjlt : j < u.start_indexes.length := by omega
    rw [List.range'_succ, List.map_cons, List.flatten_cons,
      ih (j + 1) (by omega) (fun k h1 h2 => hz k (by omega) h2)]
    have hbz : u.block j = u.chunk j := by
      unfold block
      rw [hz j (Nat.le_refl j) hjlt, List.rotate_zero]
    rw [hbz]
    unfold chunk subarrayLen
    rw [gai_eq]
    have hsucc : integer_sum (j + 1) = integer_sum j + (j + 1) := integer_sum_succ j
    by_cases hlast : j = u.start_indexes.length - 1
    · rw [if_pos hlast]
      have hc1 : integer_sum u.start_indexes.length ≤ integer_sum (j + 1) :=
        integer_sum_mono (by omega)
      have h1 : u.data.length - integer_sum (j + 1) = 0 := by omega
      rw [h1]
      simp
    · rw [if_neg hlast]
      have hj1 : integer_sum (j + 1) ≤ integer_sum (u.start_indexes.length - 1) :=
        integer_sum_mono (by omega)
      have hform : u.data.length - integer_sum j =
          (j + 1) + (u.data.length - integer_sum (j + 1)) := by omega
      rw [hform]
      conv_rhs => rw [List.take_add, List.drop_drop]
      rw [← hsucc]

/-- A state whose pivot offsets are all 0 has its backing store as logical
contents. -/
theorem logicalList_eq_data_of_zero (u : RotatedVec T)
    (hlen : u.start_indexes.length =
      (if u.data.length = 0 then 0
       else get_subarray_idx_from_array_idx (u.data.length - 1) + 1))
    (hb : u.data.length ≤ lenBound)
    (hz : ∀ k, k < u.start_indexes.length → u.start_indexes.getD k 0 = 0) :
    logicalList u = u.data := by
  by_cases hn : u.data.length = 0
  · rw [if_pos hn] at hlen
    have hdata : u.data = [] := List.length_eq_zero.mp hn
    unfold logicalList
    rw [hlen, hdata]
    simp
  · rw [if_neg hn] at hlen
    obtain ⟨h1, h2⟩ := sub_spec (u.data.length - 1) (by omega)
    have hspan1 : integer_sum (u.start_indexes.length - 1) < u.data.length := by
      rw [hlen]
      simp only [Nat.add_sub_cancel]
      omega
    have hspan2 : u.data.length ≤ integer_sum u.start_indexes.length := by
      rw [hlen]
      omega
    unfold logicalList
    rw [List.range_eq_range']
    have hzt := flatten_blocks_zero_tail u hspan1 hspan2 u.start_indexes.length 0
      (by omega) (fun k _ hk => hz k hk)
    rw [hzt]
    simp [integer_sum]

theorem flatten_perm_of_pointwise (f g : Nat → List T) (c : Nat)
    (h : ∀ k, k < c → (f k).Perm (g k)) :
    (((List.range c).map f).flatten).Perm (((List.range c).map g).flatten) := by
  induction c with
  | zero => simp
  | succ c ih =>
    rw [List.range_succ, List.map_append, List.map_append, List.flatten_append,
      List.flatten_append]
    exact (ih (fun k hk => h k (by omega))).append (by simpa using h c (by omega))

/-- The logical contents are a permutation of the backing store. -/
theorem logicalList_perm_data {v : RotatedVec T} (hwf : WF v)
    (hb : v.data.length ≤ lenBound) : (logicalList v).Perm v.data := by
  have hz : logicalList (⟨v.data, v.start_indexes.map (fun _ => 0)⟩ : RotatedVec T)
      = v.data := by
    apply logicalList_eq_data_of_zero
    · simpa using hwf.1
    · exact hb
    · intro k hk
      simp only [List.length_map] at hk
      rw [List.getD_eq_getElem?_getD, List.getElem?_map, List.getElem?_eq_getElem hk]
      rfl
  have hperm : (logicalList v).Perm
      (logicalList (⟨v.data, v.start_indexes.map (fun _ => 0)⟩ : RotatedVec T)) := by
    unfold logicalList
    simp only [List.length_map]
    apply flatten_perm_of_pointwise
    intro k hk
    have hchunk : chunk (⟨v.data, v.start_indexes.map (fun _ => 0)⟩ : RotatedVec T) k
        = v.chunk k := by
      unfold chunk subarrayLen
      simp
    show (v.block k).Perm (block (⟨v.data, v.start_indexes.map (fun _ => 0)⟩ : RotatedVec T) k)
    unfold block
    rw [hchunk]
    exact (List.rotate_perm _ _).trans (List.rotate_perm _ _).symm
  rw [hz] at hperm
  exact hperm

theorem get?_eq_logicalList [Inhabited T] {v : RotatedVec T} (hwf : WF v)
    (hb : v.data.length ≤ lenBound) {i : Nat} (hi : i < v.data.length) :
    v.get? i = (logicalList v)[i]? := by
  obtain ⟨heq, hreal⟩ := data_getElem_real hwf hb hi
  unfold get?
  rw [if_neg (by omega)]
  exact heq

end RotatedVec

end RotVec

namespace RotVec

namespace RotatedVec

variable {T : Type}

theorem getD_replicate_zero (m k : Nat) : (List.replicate m 0).getD k 0 = 0 := by
  rw [List.getD_eq_getElem?_getD, List.getElem?_replicate]
  split <;> rfl

theorem sortRV_zero {T : Type} [LinearOrder T] (v : RotatedVec T) :
    ∀ k, (sortRV v).start_indexes.getD k 0 = 0 := by
  intro k
  unfold sortRV
  rw [List.getD_eq_getElem?_getD, List.getElem?_map]
  cases v.start_indexes[k]? <;> rfl

theorem sortRV_wf {T : Type} [LinearOrder T] {v : RotatedVec T} (hwf : WF v) :
    WF (sortRV v) := by
  refine ⟨?_, ?_, ?_⟩
  · have h := hwf.1
    unfold sortRV
    simp only [List.length_map, List.length_insertionSort]
    exact h
  · intro k _
    rw [sortRV_zero v k]
    omega
  · intro _
    exact sortRV_zero v _

end RotatedVec

open RotatedVec

/-! ### Claim C7 -/

/-- C7: after `sort` (and `sort_unstable`, modelled identically) every
index-table entry equals 0 and the logical contents (what iteration /
`get(0), get(1), …` yields) are sorted in non-decreasing order and form the
same multiset as before (a permutation of the original logical contents). -/
theorem C7_sort {T : Type} [LinearOrder T] {v : RotatedVec T} (hwf : WF v)
    (hb : v.data.length ≤ lenBound) :
    (∀ k, k < (sortRV v).start_indexes.length → (sortRV v).start_indexes.getD k 0 = 0) ∧
      List.Sorted (fun a b => a ≤ b) (logicalList (sortRV v)) ∧
      List.Perm (logicalList (sortRV v)) (logicalList v) ∧
      sort_unstable v = sortRV v ∧ WF (sortRV v) := by
  have hdata : logicalList (sortRV v) = v.data.insertionSort (fun a b => a ≤ b) := by
    apply logicalList_eq_data_of_zero
    · have h := hwf.1
      unfold sortRV
      simp only [List.length_map, List.length_insertionSort]
      exact h
    · unfold sortRV
      simpa [List.length_insertionSort] using hb
    · exact fun k _ => sortRV_zero v k
  refine ⟨fun k _ => sortRV_zero v k, ?_, ?_, rfl, sortRV_wf hwf⟩
  · rw [hdata]
    exact List.sorted_insertionSort _ _
  · rw [hdata]
    exact (List.perm_insertionSort _ _).trans (logicalList_perm_data hwf hb).symm

/-- Witness for C7 on the container built from `vec![3, 1, 2]`. -/
theorem C7_witness :
    List.Sorted (fun a b : Nat => a ≤ b) (logicalList (sortRV (fromVec ([3, 1, 2] : List Nat)))) ∧
      (sortRV (fromVec ([3, 1, 2] : List Nat))).start_indexes.getD 0 0 = 0 := by
  have h := C7_sort (v := fromVec ([3, 1, 2] : List Nat)) (by decide) (by decide)
  exact ⟨h.2.1, h.1 0 (by decide)⟩

namespace RotatedVec

/-! ### `Into<Vec>` loop invariant -/

theorem intoVecAux_eq {v : RotatedVec T} (hwf : WF v) (hb : v.data.length ≤ lenBound) :
    ∀ (fuel j : Nat) (d : List T), j + fuel = v.start_indexes.length →
      d = ((List.range j).map v.block).flatten ++ v.data.drop (integer_sum j) →
      intoVecAux fuel v d j = logicalList v := by
  intro fuel
  induction fuel with
  | zero =>
    intro j d hj hd
    have hj' : j = v.start_indexes.length := by omega
    subst hj'
    show d = logicalList v
    by_cases hn : v.data.length = 0
    · have hc : v.start_indexes = [] := wf_si_nil hwf hn
      have hdata : v.data = [] := List.length_eq_zero.mp hn
      rw [hd, hc, hdata]
      simp [logicalList, hc]
    · obtain ⟨hs1, hs2⟩ := wf_span hwf hn hb
      rw [hd, List.drop_eq_nil_of_le (by omega), List.append_nil]
      rfl
  | succ fuel ih =>
    intro j d hj hd
    have hjlt : j < v.start_indexes.length := by omega
    have hn : v.data.length ≠ 0 := wf_nonempty hwf (by omega)
    obtain ⟨hs1, hs2⟩ := wf_span hwf hn hb
    have hPlen : (((List.range j).map v.block).flatten).length = integer_sum j := by
      have htk : ((List.range v.start_indexes.length).map v.block).take j
          = (List.range j).map v.block := by
        rw [← List.map_take, List.take_range, Nat.min_eq_left (by omega)]
      have hsum := sumLen_blocks hwf hb (k := j) (by omega)
      unfold sumLen at hsum
      rw [htk] at hsum
      rw [List.length_flatten, hsum]
      have : integer_sum j ≤ integer_sum (v.start_indexes.length - 1) :=
        integer_sum_mono (by omega)
      omega
    have hdropLen : (v.data.drop (integer_sum j)).length
        = v.data.length - integer_sum j := List.length_drop _ _
    have hdlen : d.length = v.data.length := by
      rw [hd, List.length_append, hPlen, hdropLen]
      have : integer_sum j ≤ integer_sum (v.start_indexes.length - 1) :=
        integer_sum_mono (by omega)
      omega
    unfold intoVecAux
    rw [if_pos hjlt]
    apply ih (j + 1) _ (by omega)
    -- the step un-rotates subarray j in place
    have hL : (if j = v.start_indexes.length - 1
        then v.data.length - integer_sum j else j + 1) = v.subarrayLen j := by
      unfold subarrayLen
      rw [gai_eq]
    simp only [intoVecStep, gai_eq, hdlen]
    rw [hL]
    have htake : d.take (integer_sum j) = ((List.range j).map v.block).flatten := by
      rw [hd]
      exact List.take_left' hPlen
    have hdrop : d.drop (integer_sum j) = v.data.drop (integer_sum j) := by
      rw [hd]
      exact List.drop_left' hPlen
    have hLs : integer_sum j + v.subarrayLen j - integer_sum j = v.subarrayLen j := by omega
    have hchunk : (d.drop (integer_sum j)).take (integer_sum j + v.subarrayLen j - integer_sum j)
        = v.chunk j := by
      rw [hLs, hdrop]
      unfold chunk
      rw [gai_eq]
    have hdropEnd : d.drop (integer_sum j + v.subarrayLen j)
        = v.data.drop (integer_sum j + v.subarrayLen j) := by
      rw [hd, ← hPlen, List.drop_append, List.drop_drop, hPlen]
    rw [htake, hchunk, hdropEnd]
    rw [List.range_succ, List.map_append, List.flatten_append]
    simp only [List.map_cons, List.map_nil, List.flatten_cons, List.flatten_nil,
      List.append_nil]
    rw [List.append_assoc, List.append_assoc]
    congr 1
    show (v.block j) ++ _ = (v.block j) ++ _
    congr 1
    obtain ⟨hL1, hL2, hL3, hL4⟩ := subarrayLen_spec hwf hb hjlt
    by_cases hlast : j + 1 < v.start_indexes.length
    · rw [hL4 hlast, ← integer_sum_succ]
    · have hj1 : j = v.start_indexes.length - 1 := by omega
      have he1 : v.data.length ≤ integer_sum j + v.subarrayLen j := by
        unfold subarrayLen
        rw [if_pos hj1, gai_eq]
        omega
      rw [List.drop_eq_nil_of_le (by omega), List.drop_eq_nil_of_le (by
        have : integer_sum v.start_indexes.length ≤ integer_sum (j + 1) :=
          integer_sum_mono (by omega)
        omega)]

theorem intoVec_eq_logicalList {v : RotatedVec T} (hwf : WF v)
    (hb : v.data.length ≤ lenBound) : intoVec v = logicalList v := by
  unfold intoVec
  apply intoVecAux_eq hwf hb v.start_indexes.length 0 v.data (by omega)
  simp [integer_sum]

theorem fromVec_wf (l : List T) : WF (fromVec l) := by
  refine ⟨?_, ?_, ?_⟩
  · unfold fromVec initTable
    split
    · simp
    · simp
  · intro k _
    unfold fromVec initTable
    split
    · simp
    · rw [getD_replicate_zero]
      omega
  · intro _
    unfold fromVec initTable
    split
    · simp
    · rw [getD_replicate_zero]

theorem logicalList_fromVec (l : List T) (hb : l.length ≤ lenBound) :
    logicalList (fromVec l) = l := by
  apply logicalList_eq_data_of_zero
  · unfold fromVec initTable
    split
    · simp
    · simp
  · exact hb
  · intro k hk
    unfold fromVec initTable
    split
    · simp
    · rw [getD_replicate_zero]

end RotatedVec

/-! ### Claim C4 -/

/-- C4: converting a well-formed container to a plain vector
(`Into<Vec<T>>`, which un-rotates every subarray) and building a container
back from it (`From<Vec<T>>`, which zeroes the index table) yields a
container element-wise equal to the original: `get(i)` agrees for every
`i`, in particular both are absent for `i ≥ len`. -/
theorem C4_roundtrip {T : Type} [Inhabited T] {v : RotatedVec T} (hwf : WF v)
    (hb : v.data.length ≤ lenBound) :
    (∀ i, (fromVec (intoVec v)).get? i = v.get? i) ∧
      (intoVec v).length = v.data.length ∧ WF (fromVec (intoVec v)) := by
  have hiv : intoVec v = logicalList v := intoVec_eq_logicalList hwf hb
  have hlen : (intoVec v).length = v.data.length := by
    rw [hiv]
    exact length_logicalList hwf hb
  refine ⟨?_, hlen, fromVec_wf _⟩
  have hfl : (fromVec (intoVec v)).data.length = v.data.length := by
    show (intoVec v).length = v.data.length
    exact hlen
  intro i
  by_cases hi : i < v.data.length
  · rw [get?_eq_logicalList (fromVec_wf _) (by omega) (by omega),
      get?_eq_logicalList hwf hb hi, logicalList_fromVec _ (by omega), hiv]
  · unfold get?
    rw [if_pos (by omega), if_pos (by omega)]

/-- Witness for C4 on a rotated well-formed state (reached by
`insert(0, 9)` from `vec![1,2,3,4,5,6]`): `get(2)` agrees after the
round-trip. -/
theorem C4_witness :
    (fromVec (intoVec ((fromVec ([1, 2, 3, 4, 5, 6] : List Nat)).insert 0 9))).get? 2 =
      ((fromVec ([1, 2, 3, 4, 5, 6] : List Nat)).insert 0 9).get? 2 :=
  (C4_roundtrip (by decide) (by decide)).1 2

end RotVec

namespace RotVec

theorem sub_mono {a b : Nat} (hab : a ≤ b) (hb : b ≤ lenBound) :
    get_subarray_idx_from_array_idx a ≤ get_subarray_idx_from_array_idx b := by
  obtain ⟨a1, a2⟩ := sub_spec a (by omega)
  obtain ⟨b1, b2⟩ := sub_spec b (by omega)
  by_contra h
  push_neg at h
  have := integer_sum_mono
    (show get_subarray_idx_from_array_idx b + 1 ≤ get_subarray_idx_from_array_idx a by omega)
  omega

theorem listResize_length (l : List Nat) (n d : Nat) : (RotatedVec.listResize l n d).length = n := by
  unfold RotatedVec.listResize
  split
  · rw [List.length_take]
    omega
  · rw [List.length_append, List.length_replicate]
    omega

theorem listResize_getD_lt (l : List Nat) (n d k : Nat) (h : k < l.length) (hn : k < n) :
    (RotatedVec.listResize l n d).getD k 0 = l.getD k 0 := by
  unfold RotatedVec.listResize
  split
  · rw [List.getD_eq_getElem?_getD, List.getElem?_take_of_lt hn, ← List.getD_eq_getElem?_getD]
  · rw [List.getD_eq_getElem?_getD, List.getElem?_append_left h, ← List.getD_eq_getElem?_getD]

theorem listResize_getD_ge (l : List Nat) (n k : Nat) (h : l.length ≤ k) :
    (RotatedVec.listResize l n 0).getD k 0 = 0 := by
  unfold RotatedVec.listResize
  split
  · rw [List.getD_eq_getElem?_getD, List.getElem?_eq_none (by rw [List.length_take]; omega)]
    rfl
  · rw [List.getD_eq_getElem?_getD, List.getElem?_append_right (by omega),
      List.getElem?_replicate]
    split <;> rfl

theorem set_self_of_getD {l : List Nat} {m : Nat} (h : l.getD m 0 = 0) : l.set m 0 = l := by
  apply List.ext_getElem?
  intro i
  by_cases hi : m = i
  · subst hi
    by_cases hlt : m < l.length
    · rw [List.getElem?_set_self hlt, List.getElem?_eq_getElem hlt]
      rw [List.getD_eq_getElem?_getD, List.getElem?_eq_getElem hlt] at h
      simp only [Option.getD_some] at h
      rw [h]
    · rw [List.getElem?_eq_none (by rw [List.length_set]; omega),
        List.getElem?_eq_none (by omega)]
  · rw [List.getElem?_set_ne hi]

namespace RotatedVec

variable {T : Type}

theorem slice_append_eq (d w : List T) (a L : Nat) (h : a + L ≤ d.length) :
    ((d ++ w).drop a).take L = (d.drop a).take L := by
  rw [List.drop_append_of_le_length (by omega),
    List.take_append_of_le_length (by rw [List.length_drop]; omega)]

theorem block_eq_of (u v : RotatedVec T) (k : Nat)
    (hc : u.chunk k = v.chunk k)
    (hp : u.start_indexes.getD k 0 = v.start_indexes.getD k 0) :
    u.block k = v.block k := by
  unfold block
  rw [hc, hp]

/-- On a well-formed nonempty state whose last subarray is partially
filled, `unrotate_last_subarray` is the identity (the pivot is already 0). -/
theorem unrotate_partial_eq {v : RotatedVec T} (hwf : WF v)
    (hb : v.data.length ≤ lenBound) (hn : v.data.length ≠ 0)
    (hp : v.data.length < integer_sum v.start_indexes.length) :
    v.unrotate_last_subarray = v := by
  have hmi : get_subarray_idx_from_array_idx (v.data.length - 1) =
      v.start_indexes.length - 1 := by
    have := wf_si_len hwf hn
    omega
  have h0 : v.start_indexes.getD (v.start_indexes.length - 1) 0 = 0 :=
    hwf.2.2 (by rw [gai_eq]; exact hp)
  obtain ⟨hs1, hs2⟩ := wf_span hwf hn hb
  have ha : integer_sum (v.start_indexes.length - 1) ≤ v.data.length := by omega
  simp only [unrotate_last_subarray, len, hmi, gai_eq, h0, List.rotate_zero,
    eq_self_iff_true, if_true]
  have h1 : integer_sum (v.start_indexes.length - 1) +
      (v.data.length - integer_sum (v.start_indexes.length - 1)) = v.data.length := by omega
  rw [h1]
  have h2 : v.data.length - integer_sum (v.start_indexes.length - 1) =
      (v.data.drop (integer_sum (v.start_indexes.length - 1))).length := by
    rw [List.length_drop]
  rw [List.drop_eq_nil_of_le (Nat.le_refl _), List.append_nil, h2,
    List.take_of_length_le (Nat.le_refl _), List.take_append_drop,
    set_self_of_getD h0]

/-- On a well-formed state `append` leaves the backing store of `self`
untouched (the conditional un-rotation is the identity), appends `other`'s
backing store, and resizes the index table with zeros. -/
theorem append_unfold {v w : RotatedVec T} (hwf : WF v)
    (hb : v.data.length ≤ lenBound) :
    (v.append w).1 = ⟨v.data ++ w.data,
      listResize v.start_indexes
        (get_subarray_idx_from_array_idx (v.data.length + w.data.length - 1) + 1) 0⟩ ∧
      (v.append w).2 = (⟨[], []⟩ : RotatedVec T) := by
  have hv1 : (if ¬ v.is_last_subarray_full then v.unrotate_last_subarray else v) = v := by
    by_cases hfull : v.is_last_subarray_full
    · rw [if_neg (by simpa using hfull)]
    · rw [if_pos (by simpa using hfull)]
      have hn : v.data.length ≠ 0 := by
        intro h0
        apply hfull
        unfold is_last_subarray_full
        rw [wf_si_nil hwf h0, h0]
        rfl
      apply unrotate_partial_eq hwf hb hn
      have hne : v.data.length ≠ get_array_idx_from_subarray_idx v.start_indexes.length := by
        intro h
        exact hfull (by unfold is_last_subarray_full; rw [h]; simp)
      rw [gai_eq] at hne
      have := (wf_span hwf hn hb).2
      omega
  unfold append
  rw [hv1]
  constructor
  · show (⟨v.data ++ w.data, _⟩ : RotatedVec T) = _
    congr 2
    rw [List.length_append]
  · rfl

/-- Logical contents of the resized-and-extended state: the original
logical contents followed by the raw appended data. -/
theorem append_logicalList {v : RotatedVec T} (w : List T) (hwf : WF v)
    (hb : v.data.length + w.length ≤ lenBound) (hne : 0 < v.data.length + w.length) :
    logicalList (⟨v.data ++ w,
      listResize v.start_indexes
        (get_subarray_idx_from_array_idx (v.data.length + w.length - 1) + 1) 0⟩ : RotatedVec T) =
      logicalList v ++ w := by
  set c' := get_subarray_idx_from_array_idx (v.data.length + w.length - 1) + 1 with hc'
  set u : RotatedVec T := ⟨v.data ++ w, listResize v.start_indexes c' 0⟩ with hu
  obtain ⟨hq1, hq2⟩ := sub_spec (v.data.length + w.length - 1) (by omega)
  have hq1' : integer_sum (c' - 1) ≤ v.data.length + w.length - 1 := by
    rw [hc']
    simpa using hq1
  have hq2' : v.data.length + w.length - 1 < integer_sum c' := by
    rw [hc']
    exact hq2
  have hulen : u.start_indexes.length = c' := listResize_length _ _ _
  have hudata : u.data.length = v.data.length + w.length := by
    show (v.data ++ w).length = _
    rw [List.length_append]
  have huspan1 : integer_sum (u.start_indexes.length - 1) < u.data.length := by
    rw [hulen, hudata, hc']
    simp only [Nat.add_sub_cancel]
    omega
  have huspan2 : u.data.length ≤ integer_sum u.start_indexes.length := by
    rw [hulen, hudata, hc']
    omega
  by_cases hn : v.data.length = 0
  · -- empty `self`: everything comes from `w`, all pivots zero
    have hsi : v.start_indexes = [] := wf_si_nil hwf hn
    have hvdata : v.data = [] := List.length_eq_zero.mp hn
    have hz : logicalList u = u.data := by
      apply logicalList_eq_data_of_zero u
      · rw [hulen, hudata, hc']
        rw [if_neg (by omega)]
      · omega
      · intro k hk
        exact listResize_getD_ge _ _ _ (by rw [hsi]; simp)
    rw [hz]
    show v.data ++ w = logicalList v ++ w
    rw [hvdata]
    unfold logicalList
    rw [hsi]
    simp
  · have hc : v.start_indexes.length = get_subarray_idx_from_array_idx (v.data.length - 1) + 1 :=
      wf_si_len hwf hn
    obtain ⟨hs1, hs2⟩ := wf_span hwf hn (by omega)
    have hcle : v.start_indexes.length ≤ c' := by
      rw [hc, hc']
      have := sub_mono (show v.data.length - 1 ≤ v.data.length + w.length - 1 by omega)
        (by omega)
      omega
    have hgetlt : ∀ k, k < v.start_indexes.length →
        u.start_indexes.getD k 0 = v.start_indexes.getD k 0 := by
      intro k hk
      exact listResize_getD_lt _ _ _ _ hk (by omega)
    have hgetge : ∀ k, v.start_indexes.length ≤ k → u.start_indexes.getD k 0 = 0 := by
      intro k hk
      exact listResize_getD_ge _ _ _ hk
    by_cases hfull : v.data.length = integer_sum v.start_indexes.length
    · -- full last subarray: it is kept as is (possibly rotated); all new
      -- subarrays start at the old length
      have hblocks : ∀ k, k < v.start_indexes.length → u.block k = v.block k := by
        intro k hk
        apply block_eq_of
        · have hLu : u.subarrayLen k = k + 1 := by
            unfold subarrayLen
            rw [hulen]
            by_cases hkeq : k = c' - 1
            · -- `k = c' - 1` together with `k < c ≤ c'` forces `c' = k + 1`
              -- and (by fullness) `w = []`, so the last subarray of `u` has
              -- length `T(k+1) - T(k) = k + 1` as well
              rw [if_pos hkeq, gai_eq, hudata]
              have hkc : c' = k + 1 := by omega
              have h2 : k + 1 ≤ v.start_indexes.length := by omega
              have h3 := integer_sum_mono h2
              have h4 := integer_sum_succ k
              rw [hkc] at hq2'
              omega
            · rw [if_neg hkeq]
          have hLv : v.subarrayLen k = k + 1 := by
            by_cases hkl : k = v.start_indexes.length - 1
            · unfold subarrayLen
              rw [if_pos hkl, hkl, gai_eq]
              have h6 := integer_sum_succ (v.start_indexes.length - 1)
              have hsl : v.start_indexes.length - 1 + 1 = v.start_indexes.length := by omega
              rw [hsl] at h6
              omega
            · unfold subarrayLen
              rw [if_neg hkl]
          unfold chunk
          rw [hLu, hLv, gai_eq]
          show ((v.data ++ w).drop (integer_sum k)).take (k + 1) = _
          apply slice_append_eq
          have hk1 : k + 1 ≤ v.start_indexes.length := by omega
          have h7 := integer_sum_mono hk1
          have h8 := integer_sum_succ k
          omega
        · exact hgetlt k hk
      have htail := flatten_blocks_zero_tail u huspan1 huspan2
        (c' - v.start_indexes.length) v.start_indexes.length
        (by rw [hulen]; omega) (fun k hk1 _ => hgetge k hk1)
      have hdroptail : (u.data.drop (integer_sum v.start_indexes.length)).take
          (u.data.length - integer_sum v.start_indexes.length) = w := by
        have hdl : u.data.drop (integer_sum v.start_indexes.length) = w := by
          show (v.data ++ w).drop (integer_sum v.start_indexes.length) = w
          exact List.drop_left' hfull
        rw [hdl]
        apply List.take_of_length_le
        rw [hudata]
        omega
      have hmapeq : List.map u.block (List.range v.start_indexes.length)
          = List.map v.block (List.range v.start_indexes.length) :=
        List.map_congr_left (fun k hk => hblocks k (List.mem_range.mp hk))
      have hfinal : logicalList u =
          ((List.range v.start_indexes.length).map u.block).flatten ++
            ((List.range' v.start_indexes.length (c' - v.start_indexes.length)).map u.block).flatten := by
        show ((List.range u.start_indexes.length).map u.block).flatten = _
        rw [hulen]
        exact flatten_range_split u.block hcle
      rw [hfinal, htail, hdroptail, hmapeq]
      rfl
    · -- partially filled last subarray: its pivot is 0, so it simply
      -- absorbs the head of the appended data
      have hlt : v.data.length < integer_sum v.start_indexes.length := by omega
      have hp0 : v.start_indexes.getD (v.start_indexes.length - 1) 0 = 0 :=
        hwf.2.2 (by rw [gai_eq]; exact hlt)
      have hc1 : 1 ≤ v.start_indexes.length := by omega
      have hblocks : ∀ k, k < v.start_indexes.length - 1 → u.block k = v.block k := by
        intro k hk
        apply block_eq_of
        · have hLu : u.subarrayLen k = k + 1 := by
            unfold subarrayLen
            rw [hulen, if_neg (by omega)]
          have hLv : v.subarrayLen k = k + 1 := by
            unfold subarrayLen
            rw [if_neg (by omega)]
          unfold chunk
          rw [hLu, hLv, gai_eq]
          show ((v.data ++ w).drop (integer_sum k)).take (k + 1) = _
          apply slice_append_eq
          have hk1 : k + 1 ≤ v.start_indexes.length - 1 := by omega
          have h7 := integer_sum_mono hk1
          have h8 := integer_sum_succ k
          omega
        · exact hgetlt k (by omega)
      have hz2 : ∀ k, v.start_indexes.length - 1 ≤ k → k < u.start_indexes.length →
          u.start_indexes.getD k 0 = 0 := by
        intro k hk1 _
        by_cases hkc : k < v.start_indexes.length
        · have hkeq : k = v.start_indexes.length - 1 := by omega
          rw [hgetlt k hkc, hkeq, hp0]
        · exact hgetge k (by omega)
      have htail := flatten_blocks_zero_tail u huspan1 huspan2
        (c' - (v.start_indexes.length - 1)) (v.start_indexes.length - 1)
        (by rw [hulen]; omega) hz2
      have hdroptail : (u.data.drop (integer_sum (v.start_indexes.length - 1))).take
          (u.data.length - integer_sum (v.start_indexes.length - 1)) =
            v.data.drop (integer_sum (v.start_indexes.length - 1)) ++ w := by
        show ((v.data ++ w).drop (integer_sum (v.start_indexes.length - 1))).take _ = _
        rw [List.drop_append_of_le_length (by omega)]
        apply List.take_of_length_le
        rw [List.length_append, List.length_drop, hudata]
        omega
      have hmapeq : List.map u.block (List.range (v.start_indexes.length - 1))
          = List.map v.block (List.range (v.start_indexes.length - 1)) :=
        List.map_congr_left (fun k hk => hblocks k (List.mem_range.mp hk))
      have hvsplit : logicalList v =
          ((List.range (v.start_indexes.length - 1)).map v.block).flatten ++
            v.data.drop (integer_sum (v.start_indexes.length - 1)) := by
        unfold logicalList
        rw [flatten_range_split v.block
          (show v.start_indexes.length - 1 ≤ v.start_indexes.length by omega)]
        congr 1
        have hone : v.start_indexes.length - (v.start_indexes.length - 1) = 1 := by omega
        rw [hone, List.range'_one, List.map_cons, List.map_nil, List.flatten_cons,
          List.flatten_nil, List.append_nil]
        unfold block
        rw [hp0, List.rotate_zero]
        unfold chunk subarrayLen
        rw [if_pos rfl, gai_eq]
        apply List.take_of_length_le
        rw [List.length_drop]
      have hfinal : logicalList u =
          ((List.range (v.start_indexes.length - 1)).map u.block).flatten ++
            ((List.range' (v.start_indexes.length - 1)
                (c' - (v.start_indexes.length - 1))).map u.block).flatten := by
        show ((List.range u.start_indexes.length).map u.block).flatten = _
        rw [hulen]
        exact flatten_range_split u.block (by omega)
      rw [hfinal, htail, hdroptail, hmapeq, hvsplit, List.append_assoc]
end RotatedVec

end RotVec

namespace RotVec

namespace RotatedVec

variable {T : Type}

theorem append_wf {v : RotatedVec T} (w : List T) (hwf : WF v)
    (hb : v.data.length + w.length ≤ lenBound) (hne : 0 < v.data.length + w.length) :
    WF (⟨v.data ++ w,
      listResize v.start_indexes
        (get_subarray_idx_from_array_idx (v.data.length + w.length - 1) + 1) 0⟩ : RotatedVec T) := by
  set c' := get_subarray_idx_from_array_idx (v.data.length + w.length - 1) + 1 with hc'
  have hcle : v.start_indexes.length ≤ c' := by
    by_cases hn : v.data.length = 0
    · rw [wf_si_nil hwf hn]
      simp
    · rw [wf_si_len hwf hn, hc']
      have := sub_mono (show v.data.length - 1 ≤ v.data.length + w.length - 1 by omega)
        (by omega)
      omega
  refine ⟨?_, ?_, ?_⟩
  · show (listResize v.start_indexes c' 0).length =
      (if (v.data ++ w).length = 0 then 0
       else get_subarray_idx_from_array_idx ((v.data ++ w).length - 1) + 1)
    rw [listResize_length, List.length_append, if_neg (by omega), hc']
  · intro k hk
    have hk' : k < c' := by
      simpa [listResize_length] using hk
    show (listResize v.start_indexes c' 0).getD k 0 ≤ k
    by_cases hkc : k < v.start_indexes.length
    · rw [listResize_getD_lt _ _ _ _ hkc (by omega)]
      exact hwf.2.1 k hkc
    · rw [listResize_getD_ge _ _ _ (by omega)]
      omega
  · intro hpart
    show (listResize v.start_indexes c' 0).getD
      ((⟨v.data ++ w, listResize v.start_indexes c' 0⟩ : RotatedVec T).start_indexes.length - 1) 0 = 0
    have hlen : (⟨v.data ++ w, listResize v.start_indexes c' 0⟩ :
        RotatedVec T).start_indexes.length = c' := listResize_length _ _ _
    rw [hlen]
    by_cases hkc : c' - 1 < v.start_indexes.length
    · have hceq : c' = v.start_indexes.length := by omega
      rw [listResize_getD_lt _ _ _ _ hkc (by omega)]
      have hvn : v.data.length ≠ 0 := by
        intro h0
        rw [wf_si_nil hwf h0] at hkc
        simp at hkc
      have hpart' : (v.data ++ w).length <
          get_array_idx_from_subarray_idx c' := by
        simpa [hlen] using hpart
      rw [List.length_append, hceq] at hpart'
      rw [hceq]
      apply hwf.2.2
      omega
    · rw [listResize_getD_ge _ _ _ (by omega)]

end RotatedVec

open RotatedVec

/-! ### Claim C6 (amended) -/

/-- C6 (amended): `append(other)` first normalizes the current last
subarray if it is NOT FULL — on a well-formed state such a subarray is
already unrotated, so this is the identity; a full rotated last subarray is
left rotated, contrary to the claim's "if it is rotated" (see
`C6_counterexample`).  It then appends `other`'s backing store in PHYSICAL
order, so `self` becomes element-wise equal (via `get`) to its original
logical contents followed by `other`'s backing-store contents (which equal
`other`'s logical contents whenever `other` has no rotated subarray);
every newly added index-table entry equals 0; `other` is left empty; and
`extend(sequence)` produces the same container from a plain sequence.
At least one element must be present overall, since appending two empty
containers underflows `self.data.len() - 1` when resizing the table. -/
theorem C6_append_extend {T : Type} [Inhabited T] {v w : RotatedVec T} (hwf : WF v)
    (hb : v.data.length + w.data.length ≤ lenBound)
    (hne : 0 < v.data.length + w.data.length) :
    logicalList (v.append w).1 = logicalList v ++ w.data
    ∧ (∀ i, i < v.data.length + w.data.length →
        (v.append w).1.get? i = (logicalList v ++ w.data)[i]?)
    ∧ (∀ k, v.start_indexes.length ≤ k → (v.append w).1.start_indexes.getD k 0 = 0)
    ∧ (v.append w).2.data = [] ∧ (v.append w).2.start_indexes = []
    ∧ (¬ v.is_last_subarray_full = true →
        (v.append w).1.start_indexes.getD (v.start_indexes.length - 1) 0 = 0)
    ∧ WF (v.append w).1
    ∧ v.extendRV w.data = (v.append w).1 := by
  obtain ⟨hA, hB⟩ := append_unfold (w := w) hwf (by omega)
  have hlog : logicalList (v.append w).1 = logicalList v ++ w.data := by
    rw [hA]
    exact append_logicalList w.data hwf hb hne
  have hWF : WF (v.append w).1 := by
    rw [hA]
    exact append_wf w.data hwf hb hne
  have hdlen : (v.append w).1.data.length = v.data.length + w.data.length := by
    rw [hA]
    show (v.data ++ w.data).length = _
    rw [List.length_append]
  refine ⟨hlog, ?_, ?_, ?_, ?_, ?_, hWF, ?_⟩
  · intro i hi
    rw [get?_eq_logicalList hWF (by omega) (by omega), hlog]
  · intro k hk
    rw [hA]
    exact listResize_getD_ge _ _ _ hk
  · rw [hB]
  · rw [hB]
  · intro hnf
    have hvn : v.data.length ≠ 0 := by
      intro h0
      apply hnf
      unfold is_last_subarray_full
      rw [wf_si_nil hwf h0, h0]
      rfl
    have hc1 : 1 ≤ v.start_indexes.length := by
      have := wf_si_len hwf hvn
      omega
    have hpartial : v.data.length < integer_sum v.start_indexes.length := by
      have hne2 : v.data.length ≠ get_array_idx_from_subarray_idx v.start_indexes.length := by
        intro h
        exact hnf (by unfold is_last_subarray_full; rw [h]; simp)
      rw [gai_eq] at hne2
      have := (wf_span hwf hvn (by omega)).2
      omega
    have hp0 : v.start_indexes.getD (v.start_indexes.length - 1) 0 = 0 :=
      hwf.2.2 (by rw [gai_eq]; exact hpartial)
    rw [hA]
    show (listResize v.start_indexes _ 0).getD (v.start_indexes.length - 1) 0 = 0
    rw [listResize_getD_lt _ _ _ _ (by omega) ?_]
    · exact hp0
    · have := sub_mono (show v.data.length - 1 ≤ v.data.length + w.data.length - 1 by omega)
        (by omega)
      have := wf_si_len hwf hvn
      omega
  · rfl

/-- Witness for C6 (amended): appending the container built from
`vec![4, 5]` onto the one built from `vec![1, 2, 3]` yields logical
contents `[1, 2, 3, 4, 5]`, with the source container emptied. -/
theorem C6_witness :
    logicalList ((fromVec ([1, 2, 3] : List Nat)).append (fromVec ([4, 5] : List Nat))).1 =
      [1, 2, 3, 4, 5] ∧
      ((fromVec ([1, 2, 3] : List Nat)).append (fromVec ([4, 5] : List Nat))).2.data = [] := by
  have h := C6_append_extend (v := fromVec ([1, 2, 3] : List Nat))
    (w := fromVec ([4, 5] : List Nat)) (by decide) (by decide) (by decide)
  refine ⟨?_, h.2.2.2.1⟩
  rw [h.1]
  decide

end RotVec

namespace RotVec

/-! ### Claim C5: push/pop machinery -/

theorem getD_dropLast {l : List Nat} {k : Nat} (h : k < l.length - 1) :
    (l.dropLast).getD k 0 = l.getD k 0 := by
  rw [List.dropLast_eq_take, List.getD_eq_getElem?_getD,
    List.getElem?_take_of_lt h, ← List.getD_eq_getElem?_getD]

theorem reverse_map_some_eq {α : Type} (L : List α) (hn : L.length ≠ 0) :
    L.reverse.map some =
      L[L.length - 1]? :: ((L.take (L.length - 1)).reverse.map (some : α → Option α)) := by
  have hlt : L.length - 1 < L.length := by omega
  have hd : L.drop (L.length - 1) = [L[L.length - 1]] := by
    rw [List.drop_eq_getElem_cons hlt,
      show L.length - 1 + 1 = L.length by omega,
      List.drop_eq_nil_of_le (Nat.le_refl L.length)]
  conv_lhs => rw [← List.take_append_drop (L.length - 1) L, hd]
  rw [List.reverse_append, List.map_append, List.getElem?_eq_getElem hlt]
  rfl

namespace RotatedVec

variable {T : Type}

/-- The last-subarray-full test holds exactly when the backing store fills
its subarrays to the last triangular boundary. -/
theorem full_iff {v : RotatedVec T} :
    v.is_last_subarray_full = true ↔
      v.data.length = integer_sum v.start_indexes.length := by
  unfold is_last_subarray_full
  rw [gai_eq]
  exact beq_iff_eq

theorem wf_new : WF (new : RotatedVec T) := by
  refine ⟨rfl, ?_, ?_⟩
  · intro k hk
    exact absurd hk (by simp [new])
  · intro h
    exact absurd h (by simp [new, get_array_idx_from_subarray_idx])

theorem sub_len_full {v : RotatedVec T} (hwf : WF v) (hb : v.data.length ≤ lenBound)
    (hfull : v.data.length = integer_sum v.start_indexes.length) :
    get_subarray_idx_from_array_idx v.data.length = v.start_indexes.length := by
  by_cases hn : v.data.length = 0
  · rw [hn, wf_si_nil hwf hn]
    rfl
  · apply sub_eq hb (by omega)
    have := integer_sum_succ v.start_indexes.length
    omega

theorem sub_len_partial {v : RotatedVec T} (hwf : WF v) (hb : v.data.length ≤ lenBound)
    (hnf : v.data.length ≠ integer_sum v.start_indexes.length) :
    get_subarray_idx_from_array_idx v.data.length = v.start_indexes.length - 1 ∧
      v.data.length ≠ 0 ∧ 1 ≤ v.start_indexes.length := by
  have hn : v.data.length ≠ 0 := by
    intro h0
    apply hnf
    rw [h0, wf_si_nil hwf h0]
    rfl
  have hc1 : 1 ≤ v.start_indexes.length := by
    have := wf_si_len hwf hn
    omega
  obtain ⟨hs1, hs2⟩ := wf_span hwf hn hb
  refine ⟨?_, hn, hc1⟩
  apply sub_eq hb (by omega)
  rw [show v.start_indexes.length - 1 + 1 = v.start_indexes.length by omega]
  omega

/-- `push` always takes `insert`'s simple splice path: it appends the value
at the end of the backing store, adding a fresh zero index-table entry
exactly when the last subarray was full. -/
theorem push_eq [Inhabited T] {v : RotatedVec T} (hwf : WF v)
    (hb : v.data.length ≤ lenBound) (x : T) :
    v.push x = if v.data.length = integer_sum v.start_indexes.length
      then ⟨v.data ++ [x], v.start_indexes ++ [0]⟩
      else ⟨v.data ++ [x], v.start_indexes⟩ := by
  by_cases hfull : v.data.length = integer_sum v.start_indexes.length
  · have hsub := sub_len_full hwf hb hfull
    rw [if_pos hfull]
    obtain ⟨d, si⟩ := v
    have hsub' : get_subarray_idx_from_array_idx d.length = si.length := hsub
    have hfull' : d.length = integer_sum si.length := hfull
    show insert ⟨d, si⟩ (len ⟨d, si⟩) x = (⟨d ++ [x], si ++ [0]⟩ : RotatedVec T)
    simp only [insert, len]
    rw [if_neg (Nat.lt_irrefl d.length), hsub', if_pos rfl]
    have hcond : si.length = (RotatedVec.mk d (si ++ [0])).start_indexes.length - 1 ∧
        ¬ (RotatedVec.mk d (si ++ [0])).is_last_subarray_full = true := by
      constructor
      · show si.length = (si ++ [0]).length - 1
        rw [List.length_append, List.length_cons, List.length_nil]
        omega
      · rw [full_iff]
        show ¬ d.length = integer_sum (si ++ [0]).length
        rw [List.length_append, List.length_cons, List.length_nil, Nat.zero_add]
        have := integer_sum_succ si.length
        omega
    rw [if_pos hcond]
    show (⟨d.insertIdx d.length x, si ++ [0]⟩ : RotatedVec T) = _
    rw [List.insertIdx_length_self]
  · obtain ⟨hsub, hn, hc1⟩ := sub_len_partial hwf hb hfull
    rw [if_neg hfull]
    obtain ⟨d, si⟩ := v
    have hsub' : get_subarray_idx_from_array_idx d.length = si.length - 1 := hsub
    have hfull' : ¬ d.length = integer_sum si.length := hfull
    have hc1' : 1 ≤ si.length := hc1
    show insert ⟨d, si⟩ (len ⟨d, si⟩) x = (⟨d ++ [x], si⟩ : RotatedVec T)
    simp only [insert, len]
    rw [if_neg (Nat.lt_irrefl d.length), hsub',
      if_neg (show ¬ si.length - 1 = si.length by omega)]
    have hcond : si.length - 1 = (RotatedVec.mk d si).start_indexes.length - 1 ∧
        ¬ (RotatedVec.mk d si).is_last_subarray_full = true := by
      refine ⟨rfl, ?_⟩
      rw [full_iff]
      exact hfull'
    rw [if_pos hcond]
    show (⟨d.insertIdx d.length x, si⟩ : RotatedVec T) = _
    rw [List.insertIdx_length_self]

/-- `push` lands exactly on the `append` normal form for a one-element
extension. -/
theorem push_fix [Inhabited T] {v : RotatedVec T} (hwf : WF v)
    (hb : v.data.length ≤ lenBound) (x : T) :
    v.push x = ⟨v.data ++ [x],
      listResize v.start_indexes
        (get_subarray_idx_from_array_idx (v.data.length + ([x] : List T).length - 1) + 1) 0⟩ := by
  rw [push_eq hwf hb x,
    (show v.data.length + ([x] : List T).length - 1 = v.data.length by simp)]
  by_cases hfull : v.data.length = integer_sum v.start_indexes.length
  · rw [if_pos hfull, sub_len_full hwf hb hfull]
    congr 1
    unfold listResize
    rw [if_neg (by omega),
      show v.start_indexes.length + 1 - v.start_indexes.length = 1 by omega]
    rfl
  · obtain ⟨hsub, hn, hc1⟩ := sub_len_partial hwf hb hfull
    rw [if_neg hfull, hsub,
      show v.start_indexes.length - 1 + 1 = v.start_indexes.length by omega]
    congr 1
    unfold listResize
    rw [if_pos (Nat.le_refl _), List.take_length]

theorem push_wf [Inhabited T] {v : RotatedVec T} (hwf : WF v)
    (hb : v.data.length + 1 ≤ lenBound) (x : T) : WF (v.push x) := by
  rw [push_fix hwf (by omega) x]
  exact append_wf [x] hwf (by simpa using hb)
    (by simp only [List.length_cons, List.length_nil]; omega)

/-- On a well-formed nonempty state whose last pivot offset is 0, the
physical index of the last logical position is the last backing slot. -/
theorem get_real_index_last {v : RotatedVec T} (hwf : WF v)
    (hb : v.data.length ≤ lenBound) (hn : v.data.length ≠ 0)
    (hp0 : v.start_indexes.getD (v.start_indexes.length - 1) 0 = 0) :
    v.get_real_index (v.data.length - 1) = v.data.length - 1 := by
  have hc := wf_si_len hwf hn
  have hsubl : get_subarray_idx_from_array_idx (v.data.length - 1) =
      v.start_indexes.length - 1 := by omega
  obtain ⟨hs1, hs2⟩ := wf_span hwf hn hb
  rw [get_real_index_eq, hsubl, hp0]
  unfold subarrayLen
  rw [if_pos rfl, gai_eq, Nat.zero_add, Nat.mod_eq_of_lt (by omega)]
  omega

/-- On a well-formed state with every pivot offset 0, `pop` removes and
returns the physically (= logically) last element: the conditional
un-rotation inside `remove` is the identity, the computed removal index is
`len - 1`, and the last index-table entry is dropped exactly when the last
subarray held a single element.  The resulting state is again well formed
with all pivot offsets 0. -/
theorem pop_zero_spec [Inhabited T] {v : RotatedVec T} (hwf : WF v)
    (hz : ∀ j, j < v.start_indexes.length → v.start_indexes.getD j 0 = 0)
    (hb : v.data.length ≤ lenBound) (hn : v.data.length ≠ 0) :
    (v.pop).2 = v.data[v.data.length - 1]?
    ∧ (v.pop).1.data = v.data.take (v.data.length - 1)
    ∧ WF (v.pop).1
    ∧ (∀ j, j < (v.pop).1.start_indexes.length → (v.pop).1.start_indexes.getD j 0 = 0) := by
  have hie : v.is_empty = false := by
    unfold is_empty
    cases hd : v.data with
    | nil => exact absurd (by rw [hd]; rfl) hn
    | cons a t => rfl
  have hpop : v.pop = ((v.remove (v.data.length - 1)).1, some (v.remove (v.data.length - 1)).2) := by
    unfold pop len
    rw [hie, if_neg Bool.false_ne_true]
  have hc := wf_si_len hwf hn
  have hc1 : 1 ≤ v.start_indexes.length := by omega
  obtain ⟨hs1, hs2⟩ := wf_span hwf hn hb
  have hsubl : get_subarray_idx_from_array_idx (v.data.length - 1) =
      v.start_indexes.length - 1 := by omega
  have hp0 : v.start_indexes.getD (v.start_indexes.length - 1) 0 = 0 := hz _ (by omega)
  have hri : v.get_real_index (v.data.length - 1) = v.data.length - 1 :=
    get_real_index_last hwf hb hn hp0
  have hrem : v.remove (v.data.length - 1) =
      (⟨v.data.take (v.data.length - 1),
        if integer_sum (v.start_indexes.length - 1) = v.data.length - 1
        then v.start_indexes.dropLast else v.start_indexes⟩,
       v.data.getD (v.data.length - 1) default) := by
    simp only [remove]
    rw [hri, hsubl]
    simp only [eq_self_iff_true, if_true]
    by_cases hfull : v.data.length = integer_sum v.start_indexes.length
    · rw [if_pos (full_iff.mpr hfull), hp0, List.rotate_zero, List.take_append_drop,
        set_self_of_getD hp0,
        show (⟨v.data, v.start_indexes⟩ : RotatedVec T) = v from rfl, hri,
        if_neg (Nat.lt_irrefl (v.start_indexes.length - 1))]
      show ((⟨v.data.eraseIdx (v.data.length - 1),
          if get_array_idx_from_subarray_idx (v.start_indexes.length - 1) =
              (v.data.eraseIdx (v.data.length - 1)).length
          then v.start_indexes.dropLast else v.start_indexes⟩ : RotatedVec T),
        v.data.getD (v.data.length - 1) default) = _
      rw [List.eraseIdx_eq_take_drop_succ,
        show v.data.length - 1 + 1 = v.data.length by omega,
        List.drop_eq_nil_of_le (Nat.le_refl v.data.length), List.append_nil,
        gai_eq, List.length_take,
        Nat.min_eq_left (show v.data.length - 1 ≤ v.data.length by omega)]
    · rw [if_neg (fun h => hfull (full_iff.mp h)),
        if_neg (Nat.lt_irrefl (v.start_indexes.length - 1))]
      show ((⟨v.data.eraseIdx (v.data.length - 1),
          if get_array_idx_from_subarray_idx (v.start_indexes.length - 1) =
              (v.data.eraseIdx (v.data.length - 1)).length
          then v.start_indexes.dropLast else v.start_indexes⟩ : RotatedVec T),
        v.data.getD (v.data.length - 1) default) = _
      rw [List.eraseIdx_eq_take_drop_succ,
        show v.data.length - 1 + 1 = v.data.length by omega,
        List.drop_eq_nil_of_le (Nat.le_refl v.data.length), List.append_nil,
        gai_eq, List.length_take,
        Nat.min_eq_left (show v.data.length - 1 ≤ v.data.length by omega)]
  have hpop1 : (v.pop).1 = ⟨v.data.take (v.data.length - 1),
      if integer_sum (v.start_indexes.length - 1) = v.data.length - 1
      then v.start_indexes.dropLast else v.start_indexes⟩ := by
    rw [hpop, hrem]
  have hpop2 : (v.pop).2 = some (v.data.getD (v.data.length - 1) default) := by
    rw [hpop, hrem]
  refine ⟨?_, ?_, ?_, ?_⟩
  · rw [hpop2, List.getD_eq_getElem?_getD,
      List.getElem?_eq_getElem (show v.data.length - 1 < v.data.length by omega),
      Option.getD_some]
  · rw [hpop1]
  · rw [hpop1]
    by_cases hA : integer_sum (v.start_indexes.length - 1) = v.data.length - 1
    · rw [if_pos hA]
      refine ⟨?_, ?_, ?_⟩
      · show (v.start_indexes.dropLast).length =
          if (v.data.take (v.data.length - 1)).length = 0 then 0
          else get_subarray_idx_from_array_idx ((v.data.take (v.data.length - 1)).length - 1) + 1
        rw [List.length_dropLast, List.length_take,
          Nat.min_eq_left (show v.data.length - 1 ≤ v.data.length by omega)]
        by_cases hone : v.data.length = 1
        · rw [if_pos (by omega)]
          have hs0 : get_subarray_idx_from_array_idx (v.data.length - 1) = 0 := by
            rw [show v.data.length - 1 = 0 by omega]
            rfl
          omega
        · rw [if_neg (by omega)]
          have hc2 : 2 ≤ v.start_indexes.length := by
            by_contra hlt
            push_neg at hlt
            obtain ⟨u1, u2⟩ := sub_spec (v.data.length - 1) (by omega)
            rw [hsubl, show v.start_indexes.length - 1 + 1 = v.start_indexes.length
              by omega] at u2
            have h1eq : integer_sum v.start_indexes.length = 1 := by
              rw [show v.start_indexes.length = 1 by omega]
              rfl
            omega
          have hss := integer_sum_succ (v.start_indexes.length - 2)
          rw [show v.start_indexes.length - 2 + 1 = v.start_indexes.length - 1 by omega] at hss
          have hsub2 : get_subarray_idx_from_array_idx (v.data.length - 1 - 1) =
              v.start_indexes.length - 2 := by
            apply sub_eq (by omega) (by omega)
            rw [show v.start_indexes.length - 2 + 1 = v.start_indexes.length - 1 by omega]
            omega
          omega
      · intro k hk
        have hk' : k < v.start_indexes.length - 1 := by
          simpa [List.length_dropLast] using hk
        show (v.start_indexes.dropLast).getD k 0 ≤ k
        rw [getD_dropLast hk']
        exact hwf.2.1 k (by omega)
      · intro hcond
        exfalso
        have hcond' := hcond
        simp only [List.length_take, List.length_dropLast] at hcond'
        rw [gai_eq] at hcond'
        omega
    · rw [if_neg hA]
      have hB : integer_sum (v.start_indexes.length - 1) < v.data.length - 1 := by omega
      refine ⟨?_, ?_, ?_⟩
      · show v.start_indexes.length =
          if (v.data.take (v.data.length - 1)).length = 0 then 0
          else get_subarray_idx_from_array_idx ((v.data.take (v.data.length - 1)).length - 1) + 1
        rw [List.length_take,
          Nat.min_eq_left (show v.data.length - 1 ≤ v.data.length by omega),
          if_neg (by omega)]
        have hsub2 : get_subarray_idx_from_array_idx (v.data.length - 1 - 1) =
            v.start_indexes.length - 1 := by
          apply sub_eq (by omega) (by omega)
          rw [show v.start_indexes.length - 1 + 1 = v.start_indexes.length by omega]
          omega
        omega
      · exact fun k hk => hwf.2.1 k hk
      · exact fun _ => hp0
  · intro j
    rw [hpop1]
    by_cases hA : integer_sum (v.start_indexes.length - 1) = v.data.length - 1
    · rw [if_pos hA]
      intro hj
      have hj' : j < v.start_indexes.length - 1 := by
        simpa [List.length_dropLast] using hj
      show (v.start_indexes.dropLast).getD j 0 = 0
      rw [getD_dropLast hj']
      exact hz j (by omega)
    · rw [if_neg hA]
      intro hj
      show v.start_indexes.getD j 0 = 0
      exact hz j (by simpa using hj)

/-- Pushing a whole list onto a well-formed all-zero-pivot state appends it
to the backing store in order and keeps the state well formed with all
pivot offsets 0. -/
theorem pushAll_zero_spec [Inhabited T] :
    ∀ (l : List T) (v : RotatedVec T), WF v →
      (∀ j, j < v.start_indexes.length → v.start_indexes.getD j 0 = 0) →
      v.data.length + l.length ≤ lenBound →
      (pushAll v l).data = v.data ++ l ∧ WF (pushAll v l)
      ∧ (∀ j, j < (pushAll v l).start_indexes.length →
          (pushAll v l).start_indexes.getD j 0 = 0) := by
  intro l
  induction l with
  | nil =>
    intro v hwf hz hb
    refine ⟨?_, hwf, hz⟩
    show v.data = v.data ++ []
    rw [List.append_nil]
  | cons a t ih =>
    intro v hwf hz hb
    have hb1 : v.data.length + 1 ≤ lenBound := by
      simp only [List.length_cons] at hb
      omega
    have hpw : WF (v.push a) := push_wf hwf hb1 a
    have hpe := push_eq hwf (by omega) a
    have hdata : (v.push a).data = v.data ++ [a] := by
      rw [hpe]
      by_cases hfull : v.data.length = integer_sum v.start_indexes.length
      · rw [if_pos hfull]
      · rw [if_neg hfull]
    have hsi : ∀ j, j < (v.push a).start_indexes.length →
        (v.push a).start_indexes.getD j 0 = 0 := by
      intro j hj
      rw [hpe] at hj ⊢
      by_cases hfull : v.data.length = integer_sum v.start_indexes.length
      · rw [if_pos hfull] at hj ⊢
        have hj' : j < (v.start_indexes ++ [0]).length := hj
        rw [List.length_append, List.length_cons, List.length_nil] at hj'
        show (v.start_indexes ++ [0]).getD j 0 = 0
        by_cases hjc : j < v.start_indexes.length
        · rw [List.getD_eq_getElem?_getD, List.getElem?_append_left hjc,
            ← List.getD_eq_getElem?_getD]
          exact hz j hjc
        · rw [List.getD_eq_getElem?_getD, List.getElem?_append_right (by omega),
            show j - v.start_indexes.length = 0 by omega]
          rfl
      · rw [if_neg hfull] at hj ⊢
        show v.start_indexes.getD j 0 = 0
        exact hz j hj
    obtain ⟨g1, g2, g3⟩ := ih (v.push a) hpw hsi
      (by
        rw [hdata, List.length_append]
        simp only [List.length_cons, List.length_nil] at hb ⊢
        omega)
    refine ⟨?_, g2, g3⟩
    show (pushAll (v.push a) t).data = v.data ++ a :: t
    rw [g1, hdata, List.append_assoc]
    rfl

/-- Popping an all-zero-pivot well-formed state down to empty returns the
backing store in reverse order and ends with empty store and table. -/
theorem popTimes_zero_spec [Inhabited T] :
    ∀ (k : Nat) (v : RotatedVec T), WF v →
      (∀ j, j < v.start_indexes.length → v.start_indexes.getD j 0 = 0) →
      v.data.length ≤ lenBound → v.data.length = k →
      (popTimes v k).1 = v.data.reverse.map some
      ∧ (popTimes v k).2.data = [] ∧ (popTimes v k).2.start_indexes = [] := by
  intro k
  induction k with
  | zero =>
    intro v hwf hz hb hlen
    have hdata : v.data = [] := List.length_eq_zero.mp hlen
    refine ⟨?_, ?_, ?_⟩
    · show ([] : List (Option T)) = v.data.reverse.map some
      rw [hdata]
      rfl
    · show v.data = []
      exact hdata
    · exact wf_si_nil hwf hlen
  | succ k ih =>
    intro v hwf hz hb hlen
    have hn : v.data.length ≠ 0 := by omega
    obtain ⟨p1, p2, p3, p4⟩ := pop_zero_spec hwf hz hb hn
    have hlen' : (v.pop).1.data.length = k := by
      rw [p2, List.length_take]
      omega
    obtain ⟨g1, g2, g3⟩ := ih (v.pop).1 p3 p4 (by omega) hlen'
    refine ⟨?_, g2, g3⟩
    show (v.pop).2 :: (popTimes (v.pop).1 k).1 = v.data.reverse.map some
    rw [g1, p1, p2, reverse_map_some_eq v.data hn]

end RotatedVec

open RotatedVec

/-- C5: pushing the elements of any sequence (within the representable
length bound) onto an empty container and then popping the same number of
times returns `some` of each value in exact reverse push order (LIFO), and
leaves the container empty with an empty index table. -/
theorem C5_push_pop {T : Type} [Inhabited T] (l : List T) (hb : l.length ≤ lenBound) :
    (popTimes (pushAll (new : RotatedVec T) l) l.length).1 = l.reverse.map some
    ∧ (popTimes (pushAll (new : RotatedVec T) l) l.length).2.data = []
    ∧ (popTimes (pushAll (new : RotatedVec T) l) l.length).2.start_indexes = [] := by
  have hz0 : ∀ j, j < (new : RotatedVec T).start_indexes.length →
      (new : RotatedVec T).start_indexes.getD j 0 = 0 := by
    intro j hj
    exact absurd hj (by simp [new])
  obtain ⟨g1, g2, g3⟩ := pushAll_zero_spec l new wf_new hz0 (by simpa [new] using hb)
  have hdl : (pushAll (new : RotatedVec T) l).data = l := by
    rw [g1]
    rfl
  obtain ⟨q1, q2, q3⟩ := popTimes_zero_spec l.length (pushAll new l) g2 g3
    (by rw [hdl]; exact hb) (by rw [hdl])
  refine ⟨?_, q2, q3⟩
  rw [q1, hdl]

/-- Witness for C5: pushing `1, 2, 3` onto an empty container and popping
three times yields `some 3, some 2, some 1` and the empty container. -/
theorem C5_witness :
    (popTimes (pushAll (new : RotatedVec Nat) [1, 2, 3]) 3).1 = [some 3, some 2, some 1]
    ∧ (popTimes (pushAll (new : RotatedVec Nat) [1, 2, 3]) 3).2.data = []
    ∧ (popTimes (pushAll (new : RotatedVec Nat) [1, 2, 3]) 3).2.start_indexes = [] := by
  have h := C5_push_pop ([1, 2, 3] : List Nat) (by decide)
  exact ⟨h.1.trans (by decide), h.2.1, h.2.2⟩

end RotVec

namespace RotVec

/-! ### Claim C10: iterator initialization and forward traversal -/

namespace RotatedVec

variable {T : Type}

/-- Repeated `next` from cursor `(ni, nri)` yields `get` at each front
position until the cursors cross. -/
theorem iterTraverse_eq [Inhabited T] (v : RotatedVec T) :
    ∀ (fuel ni nri : Nat), nri < ni + fuel →
      iterTraverse fuel v ni nri = (List.range' ni (nri + 1 - ni)).map v.get? := by
  intro fuel
  induction fuel with
  | zero =>
    intro ni nri h
    rw [show nri + 1 - ni = 0 by omega]
    rfl
  | succ fuel ih =>
    intro ni nri h
    show (if nri < ni then [] else v.get? ni :: iterTraverse fuel v (ni + 1) nri) = _
    by_cases hlt : nri < ni
    · rw [if_pos hlt, show nri + 1 - ni = 0 by omega]
      rfl
    · rw [if_neg hlt, ih (ni + 1) nri (by omega),
        (show nri + 1 - (ni + 1) = nri - ni by omega),
        (show nri + 1 - ni = (nri - ni) + 1 by omega),
        List.range'_succ, List.map_cons]

/-- `get` over all indices in order is the logical contents. -/
theorem map_get_range_eq_logical [Inhabited T] {v : RotatedVec T} (hwf : WF v)
    (hb : v.data.length ≤ lenBound) :
    (List.range v.data.length).map v.get? = (logicalList v).map some := by
  have hlen : (logicalList v).length = v.data.length := length_logicalList hwf hb
  apply List.ext_getElem?
  intro i
  rw [List.getElem?_map, List.getElem?_map]
  by_cases hi : i < v.data.length
  · rw [List.getElem?_range hi,
      List.getElem?_eq_getElem (show i < (logicalList v).length by omega),
      Option.map_some', Option.map_some', get?_eq_logicalList hwf hb hi,
      List.getElem?_eq_getElem (show i < (logicalList v).length by omega)]
  · rw [List.getElem?_eq_none (by rw [List.length_range]; omega),
      List.getElem?_eq_none (by rw [hlen]; omega), Option.map_none', Option.map_none']

end RotatedVec

open RotatedVec

/-- C10: on the empty container the `iter`/`iter_mut` cursor initialization
computes `len() - 1`, which underflows (modelled: the checked subtraction
yields `none`); on every non-empty well-formed container the initialization
is in bounds (`len - 1 < len`) and repeatedly calling `next` yields exactly
`get(0), …, get(len - 1)` — that is, the logical contents — and `none`
once the front cursor passes the rear cursor. -/
theorem C10_iteration {T : Type} [Inhabited T] (v : RotatedVec T) (hwf : WF v)
    (hb : v.data.length ≤ lenBound) :
    (v.data.length = 0 → v.iterInit? = none ∧ v.iterMutInit? = none)
    ∧ (0 < v.data.length →
        v.iterInit? = some ⟨0, v.data.length - 1⟩
        ∧ v.iterMutInit? = some ⟨0, v.data.length - 1⟩
        ∧ v.data.length - 1 < v.data.length
        ∧ iterTraverse v.data.length v 0 (v.data.length - 1) =
            (List.range v.data.length).map v.get?
        ∧ iterTraverse v.data.length v 0 (v.data.length - 1) =
            (logicalList v).map some
        ∧ (v.iterNextF ⟨v.data.length, v.data.length - 1⟩).1 = none) := by
  constructor
  · intro h0
    constructor
    · unfold iterInit? checkedSub len
      rw [if_neg (by omega)]
      rfl
    · unfold iterMutInit? checkedSub len
      rw [if_neg (by omega)]
      rfl
  · intro hpos
    have htrav : iterTraverse v.data.length v 0 (v.data.length - 1) =
        (List.range v.data.length).map v.get? := by
      rw [iterTraverse_eq v v.data.length 0 (v.data.length - 1) (by omega),
        (show v.data.length - 1 + 1 - 0 = v.data.length by omega),
        List.range_eq_range']
    refine ⟨?_, ?_, by omega, htrav, ?_, ?_⟩
    · unfold iterInit? checkedSub len
      rw [if_pos (by omega)]
      rfl
    · unfold iterMutInit? checkedSub len
      rw [if_pos (by omega)]
      rfl
    · rw [htrav]
      exact map_get_range_eq_logical hwf hb
    · have hlt : (⟨v.data.length, v.data.length - 1⟩ : IterSt).next_rev_index <
          (⟨v.data.length, v.data.length - 1⟩ : IterSt).next_index := by
        show v.data.length - 1 < v.data.length
        omega
      unfold iterNextF
      rw [if_pos hlt]

/-- Witness for C10: on the container built from `vec![5, 6, 7]` the cursor
initializes to `(0, 2)` and the forward traversal yields
`some 5, some 6, some 7`. -/
theorem C10_witness :
    iterInit? (fromVec ([5, 6, 7] : List Nat)) = some ⟨0, 2⟩
    ∧ iterTraverse 3 (fromVec ([5, 6, 7] : List Nat)) 0 2 =
        [some 5, some 6, some 7] := by
  have h := C10_iteration (fromVec ([5, 6, 7] : List Nat)) (by decide) (by decide)
  obtain ⟨-, h2⟩ := h
  obtain ⟨g1, g2, g3, g4, g5, g6⟩ := h2 (by decide)
  exact ⟨g1, g5.trans (by decide)⟩

end RotVec
